import Mathlib

unseal Rat.add Rat.mul Rat.sub Rat.inv

set_option maxRecDepth 100000

/-!
Verification development for the dagre-style layout engine in package
godagre (files graph.go, layout.go, order.go, plus the network-simplex,
compound-graph and edge-router files of the same package).

Shallow embedding conventions:
* Go float64 coordinates are modeled as rationals; every arithmetic
  operation performed by the modeled code (addition, subtraction,
  multiplication, division by constants) is exact on the dyadic values
  exercised here, so no rounding behavior is lost.
* Go maps are modeled as association lists.  Go map iteration order is
  unspecified (and deliberately randomized by the runtime); the list
  order of the model is the iteration order of one admissible execution.
  Claims that depend on iteration order are settled by exhibiting
  admissible orders explicitly.
* Go slices of pointers mutated in place are modeled by index-addressed
  lists with explicit update.
* Unbounded Go loops (the rank-relaxation loop, the DFS of makeAcyclic)
  are modeled with an explicit fuel parameter; a Boolean result records
  whether the loop actually reached its exit condition within the fuel,
  which is what the Go loop reaching its exit means.
-/

namespace Godagre

/-- Attribute values stored in the untyped attribute bags
(Go map of string to interface value): float64, int or string. -/
inductive AVal where
  | fq (q : ℚ)
  | iv (n : ℤ)
  | sv (s : String)
  deriving DecidableEq, Repr

/-- Point: an (x, y) pair; graph.go type Point. -/
structure Pt where
  x : ℚ
  y : ℚ
  deriving DecidableEq, Repr

/-- Node of graph.go.  The network-simplex scratch fields (Low, Lim,
Parent, Cutvalue) and the ordering scratch fields (In, Out, Barycenter,
Weight) are not read by any function modeled here and are omitted; the
ordering phase of order.go is modeled separately on its own layered
state, where those fields are local computations. -/
structure GNode where
  id : String
  width : ℚ := 0
  height : ℚ := 0
  x : ℚ := 0
  y : ℚ := 0
  rank : ℤ := 0
  order : ℤ := 0
  dummy : Bool := false
  attrs : List (String × AVal) := []
  deriving DecidableEq, Repr

/-- Edge of graph.go.  LabelRank and LabelOffset are never read or
written by the modeled functions and are omitted. -/
structure GEdge where
  v : String
  w : String
  name : String := ""
  width : ℚ := 0
  height : ℚ := 0
  weight : ℚ := 0
  minlen : ℤ := 0
  cutvalue : ℚ := 0
  tree : Bool := false
  reversed : Bool := false
  points : List Pt := []
  x : ℚ := 0
  y : ℚ := 0
  attrs : List (String × AVal) := []
  deriving DecidableEq, Repr

/-- Graph of graph.go.  nodes and edges are association structures; the
list order is the (admissible) map iteration order, see the header. -/
structure Graph where
  compound : Bool := false
  multigraph : Bool := false
  directed : Bool := false
  attrs : List (String × AVal) := []
  nodes : List GNode := []
  nodeCount : ℤ := 0
  edges : List GEdge := []
  edgeCount : ℤ := 0
  parentL : List (String × String) := []
  children : List (String × List String) := []
  deriving DecidableEq, Repr

structure GraphOptions where
  compoundO : Bool := false
  multigraphO : Bool := false
  directedO : Bool := false
  deriving DecidableEq, Repr

/-- NewGraph (graph.go). -/
def NewGraph (opts : GraphOptions) : Graph :=
  { compound := opts.compoundO
    multigraph := opts.multigraphO
    directed := opts.directedO }

/-- Association-list lookup, the model of a Go map read. -/
def alookup (l : List (String × AVal)) (k : String) : Option AVal :=
  (l.find? (fun p => p.1 = k)).map (·.2)

/-- Association-list upsert: replace the value at an existing key in
place, otherwise append; the model of a Go map write. -/
def aset (l : List (String × AVal)) (k : String) (v : AVal) : List (String × AVal) :=
  if l.any (fun p => p.1 = k) then
    l.map (fun p => if p.1 = k then (k, v) else p)
  else l ++ [(k, v)]

/-- SetGraph (graph.go): merge the given attributes into the graph bag. -/
def Graph.SetGraphA (g : Graph) (kvs : List (String × AVal)) : Graph :=
  { g with attrs := kvs.foldl (fun a p => aset a p.1 p.2) g.attrs }

/-- GetGraph (graph.go). -/
def Graph.GetGraph (g : Graph) (k : String) : Option AVal :=
  alookup g.attrs k

/-- Numeric read of a graph attribute.  The source performs an
unchecked type assertion to float64; Layout always stores these keys
first, so the default is never exercised on the modeled paths. -/
def Graph.getQ (g : Graph) (k : String) : ℚ :=
  match g.GetGraph k with
  | some (AVal.fq q) => q
  | _ => 0

/-- String read of a graph attribute (unchecked assertion to string in
the source). -/
def Graph.getS (g : Graph) (k : String) : String :=
  match g.GetGraph k with
  | some (AVal.sv s) => s
  | _ => ""

/-- The width/height extraction of SetNode and SetEdge (graph.go):
a float64 assertion first, then an int assertion, else zero. -/
def numAttr (attrs : List (String × AVal)) (k : String) : ℚ :=
  match alookup attrs k with
  | some (AVal.fq q) => q
  | some (AVal.iv n) => (n : ℚ)
  | _ => 0

/-- SetNode (graph.go): always constructs a fresh node, reads width and
height from the attribute map, stores every other attribute in the bag,
and increments nodeCount only when the id is new. -/
def Graph.SetNode (g : Graph) (id : String) (attrs : List (String × AVal)) : Graph :=
  let newCount := if g.nodes.any (fun n => n.id = id) then g.nodeCount else g.nodeCount + 1
  let node : GNode :=
    { id := id
      width := numAttr attrs "width"
      height := numAttr attrs "height"
      attrs := attrs.filter (fun p => p.1 ≠ "width" ∧ p.1 ≠ "height") }
  let nodes :=
    if g.nodes.any (fun n => n.id = id) then
      g.nodes.map (fun n => if n.id = id then node else n)
    else g.nodes ++ [node]
  { g with nodes := nodes, nodeCount := newCount }

/-- GetNode (graph.go): map lookup, nil modeled as none. -/
def Graph.GetNode (g : Graph) (id : String) : Option GNode :=
  g.nodes.find? (fun n => n.id = id)

/-- Nodes (graph.go): the node ids in map iteration order. -/
def Graph.Nodes (g : Graph) : List String :=
  g.nodes.map (·.id)

/-- NodeCount (graph.go). -/
def Graph.NodeCount (g : Graph) : ℤ :=
  g.nodeCount

/-- edgeKey (graph.go): name participates only for multigraphs with a
nonempty name. -/
def Graph.edgeKey (g : Graph) (v w name : String) : String :=
  if g.multigraph ∧ name ≠ "" then v ++ "->" ++ w ++ "[" ++ name ++ "]"
  else v ++ "->" ++ w

/-- SetEdge (graph.go): always constructs a fresh edge, reads only
width and height from the attribute map (weight and minlen are left at
their zero values), stores the rest in the bag, and increments
edgeCount only when the key is new. -/
def Graph.SetEdge (g : Graph) (v w : String) (attrs : List (String × AVal)) (name : String) : Graph :=
  let key := g.edgeKey v w name
  let exists_ := g.edges.any (fun e => g.edgeKey e.v e.w e.name = key)
  let edge : GEdge :=
    { v := v
      w := w
      name := name
      width := numAttr attrs "width"
      height := numAttr attrs "height"
      attrs := attrs.filter (fun p => p.1 ≠ "width" ∧ p.1 ≠ "height") }
  let edges :=
    if exists_ then
      g.edges.map (fun e => if g.edgeKey e.v e.w e.name = key then edge else e)
    else g.edges ++ [edge]
  { g with edges := edges, edgeCount := if exists_ then g.edgeCount else g.edgeCount + 1 }

/-- GetEdge (graph.go). -/
def Graph.GetEdge (g : Graph) (v w name : String) : Option GEdge :=
  g.edges.find? (fun e => g.edgeKey e.v e.w e.name = g.edgeKey v w name)

/-- Edges (graph.go): all edges in map iteration order. -/
def Graph.Edges (g : Graph) : List GEdge :=
  g.edges

/-- OutEdges (graph.go): linear scan over the edge map. -/
def Graph.OutEdges (g : Graph) (v : String) : List GEdge :=
  g.edges.filter (fun e => e.v = v)

/-- InEdges (graph.go). -/
def Graph.InEdges (g : Graph) (w : String) : List GEdge :=
  g.edges.filter (fun e => e.w = w)

/-- SetParent (graph.go), the success branch (compound graph): replace
the parent entry of the child and move the child to the end of the new
parent child list. -/
def Graph.SetParentOk (g : Graph) (child parent : String) : Graph :=
  let children : List (String × List String) :=
    match g.parentL.find? (fun p => p.1 = child) with
    | some (_, oldParent) =>
        g.children.map (fun p =>
          if p.1 = oldParent then (p.1, p.2.filter (fun c => c ≠ child)) else p)
    | none => g.children
  let parentL :=
    if g.parentL.any (fun p => p.1 = child) then
      g.parentL.map (fun p => if p.1 = child then (child, parent) else p)
    else g.parentL ++ [(child, parent)]
  let children : List (String × List String) :=
    if children.any (fun p => p.1 = parent) then
      children.map (fun p => if p.1 = parent then (p.1, p.2 ++ [child]) else p)
    else children ++ [(parent, [child])]
  { g with parentL := parentL, children := children }

/-- GetParent (graph.go): empty string models the Go zero value. -/
def Graph.GetParent (g : Graph) (node : String) : String :=
  ((g.parentL.find? (fun p => p.1 = node)).map (·.2)).getD ""

/-!
Rank assignment.  longestPath (network-simplex file) relaxes every edge
with its minlen until a pass changes nothing; assignRanks (layout.go)
is the same loop with the minlen of every edge taken as 1, since its
guard rank w less-or-equal rank v and update rank v plus 1 coincide
with the longestPath guard and update at minlen 1 on integers.
The rank table is a total map (Go map reads of absent keys yield 0).
-/

/-- The edge data the relaxation loop reads. -/
structure REdge where
  rv : String
  rw : String
  rminlen : ℤ
  deriving DecidableEq, Repr

/-- One edge step of the relaxation pass: if rank of the target is
below rank of the source plus minlen, raise it and record a change. -/
def relaxStep (st : (String → ℤ) × Bool) (e : REdge) : (String → ℤ) × Bool :=
  if st.1 e.rw < st.1 e.rv + e.rminlen then
    (Function.update st.1 e.rw (st.1 e.rv + e.rminlen), true)
  else st

/-- One full pass over the edge list, starting with changed := false. -/
def relaxPass (es : List REdge) (r : String → ℤ) : (String → ℤ) × Bool :=
  es.foldl relaxStep (r, false)

/-- The relaxation loop, fuel-bounded: repeat passes while one changed
something.  Returns the final rank table. -/
def loopRanks (es : List REdge) : ℕ → (String → ℤ) → (String → ℤ)
  | 0, r => r
  | fuel + 1, r =>
    let p := relaxPass es r
    if p.2 then loopRanks es fuel p.1 else p.1

/-- Whether the relaxation loop reached its exit condition (a full pass
with no change) within the given fuel; the Go loop terminates exactly
when this holds for some fuel. -/
def loopDone (es : List REdge) : ℕ → (String → ℤ) → Bool
  | 0, _ => false
  | fuel + 1, r =>
    let p := relaxPass es r
    if p.2 then loopDone es fuel p.1 else true

/-- The initial rank table: every rank 0. -/
def zeroRanks : String → ℤ := fun _ => 0

/-- Largest minlen of the edge list, at least 1; the rank growth bound
uses it. -/
def maxMinlen (es : List REdge) : ℤ :=
  es.foldr (fun e m => max e.rminlen m) 1

/-- Sum of the ranks of all edge targets (with multiplicity), the
strictly increasing measure of the loop. -/
def rankSum (es : List REdge) (r : String → ℤ) : ℤ :=
  (es.map (fun e => r e.rw)).sum

/-- Upper bound for rankSum on a graph admitting a topological order
topo: every rank stays below topo times maxMinlen. -/
def rankSumBound (es : List REdge) (topo : String → ℕ) : ℤ :=
  (es.map (fun e => (topo e.rw : ℤ) * maxMinlen es)).sum

/-- Fuel that provably suffices for the loop to reach its fixed point
on a graph with topological order topo. -/
def rankFuel (es : List REdge) (topo : String → ℕ) : ℕ :=
  (rankSumBound es topo).toNat + 1

/-- The edges of a Graph as seen by longestPath (per-edge minlen). -/
def rankEdgesOf (g : Graph) : List REdge :=
  g.edges.map (fun e => { rv := e.v, rw := e.w, rminlen := e.minlen })

/-- The edges of a Graph as seen by assignRanks of layout.go, which
relaxes every edge with minlen 1. -/
def rankEdges1 (g : Graph) : List REdge :=
  g.edges.map (fun e => { rv := e.v, rw := e.w, rminlen := 1 })

/-- Acyclicity certificate: a strict topological order on the edge
list. -/
def TopoOrdered (es : List REdge) (topo : String → ℕ) : Prop :=
  ∀ e ∈ es, topo e.rv < topo e.rw

instance (es : List REdge) (topo : String → ℕ) : Decidable (TopoOrdered es topo) :=
  decidable_of_iff (∀ e ∈ es, topo e.rv < topo e.rw) Iff.rfl

/-- Acyclicity certificate for a graph. -/
def GraphTopo (g : Graph) (topo : String → ℕ) : Prop :=
  ∀ e ∈ g.edges, topo e.v < topo e.w

instance (g : Graph) (topo : String → ℕ) : Decidable (GraphTopo g topo) :=
  decidable_of_iff (∀ e ∈ g.edges, topo e.v < topo e.w) Iff.rfl

/-!
makeAcyclic (layout.go): DFS from every unvisited node; an out-edge
whose target is visited and on the recursion stack is reversed in
place and recorded.  Edges are addressed by their index in the edge
list (the Go code holds pointers); the record rev is the list of
reversed indices in reversal order.  The recursion is fuel-bounded;
its depth is bounded by the number of distinct ids ever visited, so
nodes + edges + 1 fuel is never exhausted.
-/

/-- Swap source and target of an edge in place. -/
def flipVW (e : GEdge) : GEdge :=
  { e with v := e.w, w := e.v }

/-- The source-target pair of an edge. -/
def vwOf (e : GEdge) : String × String :=
  (e.v, e.w)

/-- One endpoint swap on a source-target pair. -/
def vwFlip (p : String × String) : String × String :=
  (p.2, p.1)

/-- State of the makeAcyclic DFS. -/
structure AcySt where
  aedges : List GEdge
  visited : List String
  onStack : List String
  rev : List ℕ
  deriving Repr

/-- The loop body of the DFS of makeAcyclic: look at one out-edge; a
visited target on the stack is a back edge, reversed in place and
recorded; an unvisited target is entered recursively. -/
def dfsBody (dfsRec : String → AcySt → AcySt) (st : AcySt) (i : ℕ) : AcySt :=
  match st.aedges.get? i with
  | none => st
  | some e =>
    if e.w ∈ st.visited then
      if e.w ∈ st.onStack then
        { st with aedges := st.aedges.set i (flipVW e), rev := st.rev ++ [i] }
      else st
    else dfsRec e.w st

/-- The loop over the out-edges of v: the index list is captured when
the node is entered (the Go code captures the OutEdges slice before
iterating); targets are re-read from the live state, which the
invariants of the enclosing run keep equal to the captured ones. -/
def dfsScan (dfsRec : String → AcySt → AcySt) (v : String) (st1 : AcySt) : AcySt :=
  ((List.range st1.aedges.length).filter
    (fun i => match st1.aedges.get? i with
      | some e => e.v = v
      | none => false)).foldl (dfsBody dfsRec) st1

/-- The DFS of makeAcyclic: mark visited and on-stack, scan the
out-edges, then leave the stack. -/
def dfsAcy : ℕ → String → AcySt → AcySt
  | 0, _, st => st
  | fuel + 1, v, st =>
    let st2 := dfsScan (dfsAcy fuel) v
      { st with visited := v :: st.visited, onStack := v :: st.onStack }
    { st2 with onStack := st2.onStack.filter (fun u => u ≠ v) }

/-- Fuel that the DFS never exhausts: every nesting level marks a new
id visited and at most nodes + edges distinct ids occur. -/
def acyFuel (g : Graph) : ℕ :=
  g.nodes.length + g.edges.length + 1

/-- makeAcyclic (layout.go): run the DFS from every unvisited node in
Nodes() order; returns the final state (reversed edges and record). -/
def makeAcyclicSt (g : Graph) : AcySt :=
  g.Nodes.foldl
    (fun st v => if v ∈ st.visited then st else dfsAcy (acyFuel g) v st)
    { aedges := g.edges, visited := [], onStack := [], rev := [] }

/-- makeAcyclic as a graph transformer plus the reversal record. -/
def makeAcyclicG (g : Graph) : Graph × List ℕ :=
  let st := makeAcyclicSt g
  ({ g with edges := st.aedges }, st.rev)

/-- The makeAcyclic state invariant: every edge equals the original
edge at its index with the endpoints swapped once per recorded
reversal of that index. -/
def EdgesTrace (orig : List GEdge) (st : AcySt) : Prop :=
  ∀ i, (st.aedges.get? i).map vwOf
      = (orig.get? i).map (fun e => vwFlip^[st.rev.count i] (vwOf e))

/-- assignRanks (layout.go): run the relaxation loop on every edge
with minlen 1 and write the resulting ranks onto the nodes. -/
def assignRanksG (fuel : ℕ) (g : Graph) : Graph :=
  let r := loopRanks (rankEdges1 g) fuel zeroRanks
  { g with nodes := g.nodes.map (fun n => { n with rank := r n.id }) }

/-- orderNodes (layout.go): group nodes by rank in Nodes() iteration
order and assign order 0, 1, ... within each rank group; a node with
nonnegative rank (always the case after assignRanks) receives the
count of earlier same-rank nodes as its order. -/
def orderNodesG (g : Graph) : Graph :=
  { g with
    nodes := (List.range g.nodes.length).filterMap (fun i =>
      (g.nodes.get? i).map (fun n =>
        { n with order := (((g.nodes.take i).filter (fun m => m.rank = n.rank)).length : ℤ) })) }

/-- Insertion sort used to model the order-sorting of assignPositions
(a bubble sort in the source; orders within a rank are distinct, so
every comparison sort yields the same arrangement). -/
def insertSorted (le : α → α → Bool) (a : α) : List α → List α
  | [] => [a]
  | b :: l => if le a b then a :: b :: l else b :: insertSorted le a l

/-- Sort by repeated insertion (stable). -/
def sortByB (le : α → α → Bool) (l : List α) : List α :=
  l.foldr (insertSorted le) []

/-- Minimum of a rational list (the source folds math.Min from plus
infinity and guards emptiness separately). -/
def qMinL : List ℚ → ℚ
  | [] => 0
  | a :: l => l.foldl min a

/-- Maximum of a rational list. -/
def qMaxL : List ℚ → ℚ
  | [] => 0
  | a :: l => l.foldl max a

/-- The per-rank placement walk of assignPositions (layout.go): place
the order-sorted nodes left to right with the running coordinate x,
then shift the whole rank by minus half its total extent.  The switch
on rankDir has no default case, so an unknown direction leaves the
node untouched, as in the source. -/
def placeRank (rankDir : String) (nodeSep rankSep : ℚ) (r : ℤ) (ns : List GNode) : List GNode :=
  let step : (ℚ × List GNode) → GNode → (ℚ × List GNode) := fun (x, acc) node =>
    if rankDir = "TB" ∨ rankDir = "BT" then
      (x + node.width + nodeSep,
       acc ++ [{ node with x := x + node.width / 2, y := (r : ℚ) * rankSep + node.height / 2 }])
    else if rankDir = "LR" ∨ rankDir = "RL" then
      (x + node.height + nodeSep,
       acc ++ [{ node with y := x + node.height / 2, x := (r : ℚ) * rankSep + node.width / 2 }])
    else (x, acc ++ [node])
  let res := ns.foldl step (0, [])
  if res.2.length > 0 then
    let totalWidth := res.1 - nodeSep
    let offset := -totalWidth / 2
    res.2.map (fun node =>
      if rankDir = "TB" ∨ rankDir = "BT" then { node with x := node.x + offset }
      else if rankDir = "LR" ∨ rankDir = "RL" then { node with y := node.y + offset }
      else node)
  else res.2

/-- The node list produced by assignPositions (layout.go): place every
rank, then flip the rank axis for the BT and RL directions about the
maximum coordinate. -/
def assignPositionsNodes (g : Graph) : List GNode :=
  let nodeSep := g.getQ "nodesep"
  let rankSep := g.getQ "ranksep"
  let rankDir := g.getS "rankdir"
  let maxR := g.nodes.foldl (fun m n => max m n.rank) 0
  let placedAll :=
    ((List.range (maxR.toNat + 1)).map (fun rn =>
      placeRank rankDir nodeSep rankSep (rn : ℤ)
        (sortByB (fun a b => a.order ≤ b.order)
          (g.nodes.filter (fun n => n.rank = (rn : ℤ)))))).flatten
  let nodes1 := g.nodes.map (fun n => (placedAll.find? (fun m => m.id = n.id)).getD n)
  if rankDir = "BT" then
    let maxY := nodes1.foldl (fun m n => max m n.y) 0
    nodes1.map (fun n => { n with y := maxY - n.y })
  else if rankDir = "RL" then
    let maxX := nodes1.foldl (fun m n => max m n.x) 0
    nodes1.map (fun n => { n with x := maxX - n.x })
  else nodes1

/-- assignPositions (layout.go) as a graph transformer. -/
def assignPositionsG (g : Graph) : Graph :=
  { g with nodes := assignPositionsNodes g }

/-- The parents set of adjustContainerSizes (layout.go), built by
iterating the parent map; modeled as the first-occurrence list of
nonempty parents in the association-list order (one admissible Go map
iteration order). -/
def parentsList (g : Graph) : List String :=
  g.parentL.foldl (fun acc p => if p.2 ≠ "" ∧ p.2 ∉ acc then acc ++ [p.2] else acc) []

/-- The direct children nodes of a container, in parent-map iteration
order. -/
def childNodes (g : Graph) (parentID : String) : List GNode :=
  (g.parentL.filter (fun p => p.2 = parentID)).filterMap (fun p => g.GetNode p.1)

/-- The node list produced by one step of the parents loop of
adjustContainerSizes: recompute one container from the bounding box of
its direct children plus padding 30. -/
def adjustOneParentNodes (g : Graph) (parentID : String) : List GNode :=
  match g.GetNode parentID with
  | none => g.nodes
  | some _ =>
    let cs := childNodes g parentID
    if cs.isEmpty then g.nodes
    else
      let minX := qMinL (cs.map (fun c => c.x - c.width / 2)) - 30
      let maxX := qMaxL (cs.map (fun c => c.x + c.width / 2)) + 30
      let minY := qMinL (cs.map (fun c => c.y - c.height / 2)) - 30
      let maxY := qMaxL (cs.map (fun c => c.y + c.height / 2)) + 30
      g.nodes.map (fun n =>
        if n.id = parentID then
          { n with x := (minX + maxX) / 2, y := (minY + maxY) / 2,
                   width := maxX - minX, height := maxY - minY }
        else n)

/-- One step of the parents loop of adjustContainerSizes. -/
def adjustOneParent (g : Graph) (parentID : String) : Graph :=
  { g with nodes := adjustOneParentNodes g parentID }

/-- adjustContainerSizes (layout.go): for a compound graph, recompute
every parent from its direct children, in parents-map iteration
order.  The source comment promises reverse topological order, but
the code iterates a Go map. -/
def adjustContainerSizesG (g : Graph) : Graph :=
  if g.compound then (parentsList g).foldl adjustOneParent g else g

/-- The route of a single edge in routeEdges (layout.go): different
ranks get source center, exit point, two mid points, entry point and
destination center; equal ranks get the straight two-point segment of
the centers. -/
def routeEdgePoints (rankDir : String) (src dst : GNode) : List Pt :=
  let startX := src.x
  let startY := src.y
  let endX := dst.x
  let endY := dst.y
  if src.rank ≠ dst.rank then
    let mid : List Pt :=
      if rankDir = "TB" ∨ rankDir = "BT" then
        if src.rank < dst.rank then
          let exitY := startY + src.height / 2 + 10
          let enterY := endY - dst.height / 2 - 10
          let midY := (exitY + enterY) / 2
          [⟨startX, exitY⟩, ⟨startX, midY⟩, ⟨endX, midY⟩, ⟨endX, enterY⟩]
        else
          let exitY := startY - src.height / 2 - 10
          let enterY := endY + dst.height / 2 + 10
          let midY := (exitY + enterY) / 2
          [⟨startX, exitY⟩, ⟨startX, midY⟩, ⟨endX, midY⟩, ⟨endX, enterY⟩]
      else
        if src.rank < dst.rank then
          let exitX := startX + src.width / 2 + 10
          let enterX := endX - dst.width / 2 - 10
          let midX := (exitX + enterX) / 2
          [⟨exitX, startY⟩, ⟨midX, startY⟩, ⟨midX, endY⟩, ⟨enterX, endY⟩]
        else
          let exitX := startX - src.width / 2 - 10
          let enterX := endX + dst.width / 2 + 10
          let midX := (exitX + enterX) / 2
          [⟨exitX, startY⟩, ⟨midX, startY⟩, ⟨midX, endY⟩, ⟨enterX, endY⟩]
    [⟨startX, startY⟩] ++ mid ++ [⟨endX, endY⟩]
  else [⟨startX, startY⟩, ⟨endX, endY⟩]

/-- The per-edge update of routeEdges (layout.go): set the points of
an edge whose both endpoints exist, and the label anchor to the
midpoint of the two centers. -/
def routeOneEdge (g : Graph) (rankDir : String) (e : GEdge) : GEdge :=
  match g.GetNode e.v, g.GetNode e.w with
  | some src, some dst =>
    { e with points := routeEdgePoints rankDir src dst,
             x := (src.x + dst.x) / 2, y := (src.y + dst.y) / 2 }
  | _, _ => e

/-- routeEdges (layout.go). -/
def routeEdgesG (g : Graph) : Graph :=
  { g with edges := g.edges.map (routeOneEdge g (g.getS "rankdir")) }

/-- The per-edge restore operation of the Layout epilogue: swap source
and target back and reverse the point list. -/
def restoreStep (e : GEdge) : GEdge :=
  { e with v := e.w, w := e.v, points := e.points.reverse }

/-- The restore loop of Layout: apply restoreStep to each recorded
reversed edge, in record order. -/
def restoreEdges (rev : List ℕ) (es : List GEdge) : List GEdge :=
  rev.foldl
    (fun es i =>
      match es.get? i with
      | some e => es.set i (restoreStep e)
      | none => es)
    es

/-- calculateGraphDimensions (layout.go): run adjustContainerSizes
again, compute the bounding box over all node boxes and, when its
minimum is negative, translate.  The node centers and the edge label
anchors are shifted by (dx, dy); the loop over edge points iterates
the point slice by value in the source, so the increments write to
copies and the stored route points stay unchanged, which the model
reproduces by leaving the points field alone.  The empty-graph case
(infinite bounds in the source) is not modeled; no claim touches it. -/
def calculateGraphDimensionsG (g : Graph) : Graph :=
  let g := adjustContainerSizesG g
  let minX := qMinL (g.nodes.map (fun n => n.x - n.width / 2))
  let maxX := qMaxL (g.nodes.map (fun n => n.x + n.width / 2))
  let minY := qMinL (g.nodes.map (fun n => n.y - n.height / 2))
  let maxY := qMaxL (g.nodes.map (fun n => n.y + n.height / 2))
  if minX < 0 ∨ minY < 0 then
    let dx := -minX + 10
    let dy := -minY + 10
    let g1 : Graph := { g with
      nodes := g.nodes.map (fun n => { n with x := n.x + dx, y := n.y + dy }),
      edges := g.edges.map (fun e => { e with x := e.x + dx, y := e.y + dy }) }
    g1.SetGraphA [("width", AVal.fq (maxX + dx - 10)), ("height", AVal.fq (maxY + dy - 10))]
  else
    g.SetGraphA [("width", AVal.fq (maxX - minX)), ("height", AVal.fq (maxY - minY))]

/-- LayoutOptions (layout.go). -/
structure LOpts where
  nodeSepO : ℚ := 50
  edgeSepO : ℚ := 20
  rankSepO : ℚ := 50
  rankDirO : String := "TB"
  alignO : String := "UL"
  rankerO : String := "network-simplex"
  acyclicerO : String := "greedy"
  deriving DecidableEq, Repr

/-- DefaultLayoutOptions (layout.go). -/
def DefaultLayoutOptions : LOpts := {}

/-- The Layout pipeline up to and including routeEdges, together with
the reversal record of makeAcyclic.  fuel bounds the rank-relaxation
loop (unbounded in Go); every theorem either holds for all fuel or is
evaluated at inputs whose loop provably exits within the given fuel. -/
def layoutPhases (fuel : ℕ) (opts : LOpts) (g : Graph) : Graph × List ℕ :=
  let g := g.SetGraphA
    [("nodesep", AVal.fq opts.nodeSepO), ("edgesep", AVal.fq opts.edgeSepO),
     ("ranksep", AVal.fq opts.rankSepO), ("rankdir", AVal.sv opts.rankDirO),
     ("align", AVal.sv opts.alignO), ("ranker", AVal.sv opts.rankerO),
     ("acyclicer", AVal.sv opts.acyclicerO)]
  let pr := makeAcyclicG g
  let g := assignRanksG fuel pr.1
  let g := orderNodesG g
  let g := assignPositionsG g
  let g := adjustContainerSizesG g
  let g := routeEdgesG g
  (g, pr.2)

/-- Layout (layout.go): the phases, the restore loop for reversed
edges, then calculateGraphDimensions.  The source returns nil always;
the error value is omitted. -/
def LayoutM (fuel : ℕ) (opts : LOpts) (g : Graph) : Graph :=
  let pr := layoutPhases fuel opts g
  let g1 := pr.1
  calculateGraphDimensionsG { g1 with edges := restoreEdges pr.2 g1.edges }

/-!
order (order.go), the crossing-minimization loop.  It is modeled on a
layered state: layers is the list of rank layers, each a list of node
ids in their current arrangement; the Order field of every node equals
its position in its layer at all times (initOrder and every sort
reassign Order from positions), so orders are read off positions.  The
model covers inputs whose edges all span exactly one rank and whose
nodes are not dummies: on such inputs addDummyNodes and
removeDummyNodes of the source do nothing (the guard of addDummyNodes
requires a span above one and removeDummyNodes only touches nodes
whose Dummy flag is set), so they are omitted here.
-/

/-- Lexicographic order on character lists. -/
def charListLt : List Char → List Char → Bool
  | [], [] => false
  | [], _ :: _ => true
  | _ :: _, [] => false
  | a :: as, b :: bs => if a < b then true else if b < a then false else charListLt as bs

/-- The Go byte-wise string comparison, modeled character-wise (the
ids used are ASCII, where the two agree). -/
def strLtb (a b : String) : Bool :=
  charListLt a.data b.data

/-- Edge data read by the ordering phase. -/
structure OEdge where
  ov : String
  ow : String
  oweight : ℚ
  deriving DecidableEq, Repr

/-- The current order of a node: its position in its layer (the Order
field of the source, kept equal to the position by every phase). -/
def findOrder (layers : List (List String)) (id : String) : Option ℤ :=
  layers.findSome? (fun l => if id ∈ l then some ((l.indexOf id : ℕ) : ℤ) else none)

/-- The barycenter key of sweepLayer (order.go): weighted average of
the orders of the out-neighbors (downward) or in-neighbors (upward);
neighbors absent from the graph are skipped; with zero total weight
the node keeps its own current order as key. -/
def sweepKey (es : List OEdge) (layers : List (List String)) (downward : Bool)
    (n : String) : ℚ :=
  let rel := if downward then es.filter (fun e => e.ov = n) else es.filter (fun e => e.ow = n)
  let acc := rel.foldl
    (fun (sw : ℚ × ℚ) e =>
      let other := if downward then e.ow else e.ov
      match findOrder layers other with
      | some o => (sw.1 + (o : ℚ) * e.oweight, sw.2 + e.oweight)
      | none => sw)
    (0, 0)
  if acc.2 > 0 then acc.1 / acc.2 else (((findOrder layers n).getD 0 : ℤ) : ℚ)

/-- The comparator of the sort in sweepLayer: keys within 1e-6 tie to
the id order, otherwise the smaller key comes first. -/
def sweepLess (keys : String → ℚ) (a b : String) : Bool :=
  if |keys a - keys b| < 1 / 1000000 then strLtb a b else decide (keys a < keys b)

/-- sweepLayer (order.go): compute all barycenter keys of the layer
against the current state, then sort the layer by them (positions are
the new orders). -/
def sweepLayerM (es : List OEdge) (layers : List (List String)) (idx : ℕ)
    (downward : Bool) : List (List String) :=
  match layers.get? idx with
  | none => layers
  | some layer =>
    let keys := fun n => sweepKey es layers downward n
    layers.set idx (sortByB (fun a b => !(sweepLess keys b a)) layer)

/-- sweepLayerGraphs (order.go): even iterations sweep layers 1 to the
top using out-edges, odd iterations sweep layers top-minus-one down to
0 using in-edges. -/
def sweepPass (es : List OEdge) (layers : List (List String)) (iter : ℕ) :
    List (List String) :=
  if iter % 2 = 0 then
    (List.range' 1 (layers.length - 1)).foldl (fun ls i => sweepLayerM es ls i true) layers
  else
    ((List.range (layers.length - 1)).reverse).foldl (fun ls i => sweepLayerM es ls i false) layers

/-- The position map of bilayerCrossCount: index in the second layer,
0 for ids not in it (the Go map zero value). -/
def posIn (l : List String) (w : String) : ℕ :=
  if w ∈ l then l.indexOf w else 0

/-- Crossings contributed by one ordered node pair of the first layer:
out-edge pairs whose targets are inverted in the second layer. -/
def pairCrossings (es : List OEdge) (l2 : List String) (n1 n2 : String) : ℕ :=
  ((es.filter (fun e => e.ov = n1)).map (fun e1 =>
    ((es.filter (fun e => e.ov = n2)).filter
      (fun e2 => posIn l2 e1.ow > posIn l2 e2.ow)).length)).sum

/-- bilayerCrossCount (order.go). -/
def bilayerCross (es : List OEdge) (l1 l2 : List String) : ℕ :=
  (l1.tails.map (fun t =>
    match t with
    | [] => 0
    | n1 :: rest => (rest.map (fun n2 => pairCrossings es l2 n1 n2)).sum)).sum

/-- crossingCount (order.go): sum over adjacent layer pairs. -/
def crossCountM (es : List OEdge) (layers : List (List String)) : ℕ :=
  ((List.range (layers.length - 1)).map (fun i =>
    bilayerCross es ((layers.get? i).getD []) ((layers.get? (i + 1)).getD []))).sum

/-- initOrder (order.go): sort every layer by node id. -/
def initOrderM (layers : List (List String)) : List (List String) :=
  layers.map (sortByB (fun a b => !(strLtb b a)))

/-- buildLayers (order.go): group the ranked nodes into layers 0 to
maxRank, each layer in node-map iteration order. -/
def buildLayersM (nodes : List (String × ℤ)) : List (List String) :=
  let maxR := nodes.foldl (fun m n => max m n.2) 0
  (List.range (maxR.toNat + 1)).map (fun r =>
    (nodes.filter (fun n => n.2 = (r : ℤ))).map (·.1))

/-- The sentinel math.MaxInt32 of the best-ordering tracker. -/
def maxInt32 : ℕ := 2147483647

/-- One iteration of the crossing-minimization loop: sweep, count, and
keep the ordering when its count is strictly below the best so far. -/
def orderIterStep (es : List OEdge)
    (st : (List (List String)) × (List (List String)) × ℕ) (i : ℕ) :
    (List (List String)) × (List (List String)) × ℕ :=
  let ls := sweepPass es st.1 i
  let cc := crossCountM es ls
  if cc < st.2.2 then (ls, ls, cc) else (ls, st.2.1, st.2.2)

/-- The loop state after the first n iterations, started from the
id-sorted initial ordering with best = initial and bestCC = MaxInt32. -/
def orderFoldN (es : List OEdge) (layers0 : List (List String)) (n : ℕ) :
    (List (List String)) × (List (List String)) × ℕ :=
  let init := initOrderM layers0
  (List.range n).foldl (orderIterStep es) (init, init, maxInt32)

/-- order (order.go) on the layered state: 24 iterations, then restore
the best ordering found. -/
def orderM (es : List OEdge) (layers0 : List (List String)) : List (List String) :=
  (orderFoldN es layers0 24).2.1

/-- The layer state after the k-th sweep iteration (k = 0 is the
initial id-sorted ordering). -/
def orderTraj (es : List OEdge) (layers0 : List (List String)) : ℕ → List (List String)
  | 0 => initOrderM layers0
  | k + 1 => sweepPass es (orderTraj es layers0 k) k

/-!
The edge router of the separate router file: only routeSameRankEdge is
needed (claim about same-rank arcs).
-/

/-- routeSameRankEdge (edge-router file): a five-point arc bulging by
a third of the rank separation, away from the layout direction. -/
def routeSameRankEdgeM (rankDir : String) (rankSep : ℚ) (src dst : GNode) : List Pt :=
  if rankDir = "TB" ∨ rankDir = "BT" then
    let arcHeight := if rankDir = "BT" then -(rankSep / 3) else rankSep / 3
    let midX := (src.x + dst.x) / 2
    let midY := src.y - arcHeight
    [⟨src.x, src.y⟩, ⟨src.x, midY⟩, ⟨midX, midY⟩, ⟨dst.x, midY⟩, ⟨dst.x, dst.y⟩]
  else
    let arcWidth := if rankDir = "RL" then -(rankSep / 3) else rankSep / 3
    let midX := src.x - arcWidth
    let midY := (src.y + dst.y) / 2
    [⟨src.x, src.y⟩, ⟨midX, src.y⟩, ⟨midX, midY⟩, ⟨midX, dst.y⟩, ⟨dst.x, dst.y⟩]

/-- initNetworkSimplex (network-simplex file): copy the nodes with
their sizes, then copy the edges into a directed non-multigraph, with
weight read from the attribute bag (float64 then int assertion,
default 1) and minlen read as an int (default 1). -/
def initNetworkSimplexM (g : Graph) : Graph :=
  let sg := g.nodes.foldl
    (fun (sg : Graph) n =>
      let sg := sg.SetNode n.id []
      { sg with nodes := sg.nodes.map (fun m =>
          if m.id = n.id then { m with width := n.width, height := n.height } else m) })
    (NewGraph { directedO := true })
  g.edges.foldl
    (fun (sg : Graph) e =>
      let weight : ℚ :=
        match alookup e.attrs "weight" with
        | some (AVal.fq q) => q
        | some (AVal.iv n) => (n : ℚ)
        | _ => 1
      let minlen : ℤ :=
        match alookup e.attrs "minlen" with
        | some (AVal.iv n) => n
        | _ => 1
      let sg := sg.SetEdge e.v e.w [] e.name
      { sg with edges := sg.edges.map (fun f =>
          if sg.edgeKey f.v f.w f.name = sg.edgeKey e.v e.w e.name then
            { f with weight := weight, minlen := minlen }
          else f) })
    sg

/-!
Concrete inputs used by the evaluation theorems and witnesses.
-/

/-- A 100 by 50 node attribute map. -/
def szAttrs : List (String × AVal) := [("width", AVal.fq 100), ("height", AVal.fq 50)]

/-- A 10 by 10 node attribute map. -/
def tenAttrs : List (String × AVal) := [("width", AVal.fq 10), ("height", AVal.fq 10)]

/-- Three 100 by 50 nodes a, b, c with edges a to b and a to c, in
node iteration order a, b, c. -/
def gC1 : Graph :=
  ((((NewGraph { directedO := true }).SetNode "a" szAttrs).SetNode "b" szAttrs).SetNode
      "c" szAttrs).SetEdge "a" "b" [] "" |>.SetEdge "a" "c" [] ""

/-- The same node and edge contents as gC1 with node iteration order
a, c, b: a second admissible iteration order of the same Go node map. -/
def gC4b : Graph :=
  ((((NewGraph { directedO := true }).SetNode "a" szAttrs).SetNode "c" szAttrs).SetNode
      "b" szAttrs).SetEdge "a" "b" [] "" |>.SetEdge "a" "c" [] ""

/-- Compound graph with the four-level nesting A contains B contains C
contains d and no edges; the SetParent call order makes the parents
map iterate as A, B, C (outermost first), an admissible Go map order. -/
def gC5 : Graph :=
  (((((((NewGraph { directedO := true, compoundO := true }).SetNode "A" tenAttrs).SetNode
      "B" tenAttrs).SetNode "C" tenAttrs).SetNode "d" szAttrs).SetParentOk "B" "A").SetParentOk
      "C" "B").SetParentOk "d" "C"

/-- A single node with a self-loop. -/
def gLoop : Graph :=
  ((NewGraph { directedO := true }).SetNode "a" szAttrs).SetEdge "a" "a" [] ""

/-- Diamond graph a to b, a to c, b to d, c to d (all sizes 100 by
50), an acyclic input for the rank witnesses. -/
def gDiamond : Graph :=
  (((((((NewGraph { directedO := true }).SetNode "a" szAttrs).SetNode "b" szAttrs).SetNode
      "c" szAttrs).SetNode "d" szAttrs).SetEdge "a" "b" [] "").SetEdge "a" "c" [] ""
      |>.SetEdge "b" "d" [] "").SetEdge "c" "d" [] ""

/-- A topological order for the diamond. -/
def topoDiamond : String → ℕ :=
  fun s => if s = "a" then 0 else if s = "b" then 1 else if s = "c" then 1 else 3

/-- Ranked nodes of the ordering counterexample: two spine layers
around a middle layer of three nodes. -/
def c6nodes : List (String × ℤ) :=
  [("a", 0), ("b", 0), ("c", 0), ("d", 0), ("p", 1), ("q", 1), ("r", 1),
   ("k", 2), ("l", 2), ("m", 2), ("n", 2)]

/-- Edges of the ordering counterexample.  All spans are one rank; the
weight-100 edges drag the barycenter of p (from below) and r (from
above) against the orderings that the unweighted crossing count
prefers, so every sweep lands on a worse ordering than the initial
one. -/
def c6edges : List OEdge :=
  [⟨"a", "p", 1⟩, ⟨"a", "p", 1⟩, ⟨"a", "p", 1⟩, ⟨"d", "p", 100⟩, ⟨"b", "q", 1⟩,
   ⟨"c", "r", 1⟩, ⟨"p", "l", 1⟩, ⟨"q", "m", 1⟩, ⟨"r", "n", 1⟩, ⟨"r", "n", 1⟩,
   ⟨"r", "n", 1⟩, ⟨"r", "k", 100⟩]

/-- The layers of the ordering counterexample. -/
def c6layers0 : List (List String) := buildLayersM c6nodes

/-- Right edge of the box of a node, 0 when absent. -/
def boxRight (g : Graph) (id : String) : ℚ :=
  ((g.GetNode id).map (fun n => n.x + n.width / 2)).getD 0

/-- The option attributes Layout stores first, at the default
options. -/
def defaultAttrs : List (String × AVal) :=
  [("nodesep", AVal.fq 50), ("edgesep", AVal.fq 20), ("ranksep", AVal.fq 50),
   ("rankdir", AVal.sv "TB"), ("align", AVal.sv "UL"),
   ("ranker", AVal.sv "network-simplex"), ("acyclicer", AVal.sv "greedy")]

/-- Certificate that the rank loop of the Layout model at default
options reaches its fixed point within the fuel on this input, so the
fuel-bounded model agrees with the unbounded Go loop there. -/
def rankFixedReached (g : Graph) (fuel : ℕ) : Bool :=
  loopDone (rankEdges1 (makeAcyclicG (g.SetGraphA defaultAttrs)).1) fuel zeroRanks

/-- Two 100 by 50 nodes both at rank 0 joined by an edge: the input of
the same-rank routing counterexample. -/
def gC7 : Graph :=
  (((NewGraph { directedO := true }).SetNode "a" szAttrs).SetNode "b" szAttrs).SetEdge
      "a" "b" [] ""

/-!
Helper lemmas.
-/

/-- A fold preserves any predicate its step preserves. -/
theorem foldl_preserves {α β : Type} {P : β → Prop} (f : β → α → β) (l : List α)
    (h : ∀ b a, a ∈ l → P b → P (f b a)) (b : β) (hb : P b) : P (l.foldl f b) := by
  induction l generalizing b with
  | nil => exact hb
  | cons x xs ih =>
    exact ih (fun b a ha hb => h b a (List.mem_cons_of_mem _ ha) hb) _
      (h b x (List.mem_cons_self _ _) hb)

/-- Upsert followed by first-match lookup yields the new element: the
replace-in-place branch replaces every match (in particular the first)
and the append branch appends the sole match. -/
theorem upsert_find? {α : Type} (p : α → Prop) [DecidablePred p] (b : α) (l : List α)
    (hb : p b) :
    (if l.any (fun x => p x) then l.map (fun x => if p x then b else x)
     else l ++ [b]).find? (fun x => p x) = some b := by
  by_cases h : l.any (fun x => decide (p x)) = true
  · simp only [h, if_true]
    induction l with
    | nil => simp at h
    | cons x xs ih =>
      by_cases hx : p x
      · simp [hx, List.find?, hb]
      · simp only [List.any_cons, Bool.or_eq_true, decide_eq_true_eq] at h
        rcases h with h | h
        · exact absurd h hx
        · simp only [List.map_cons, if_neg hx, List.find?, decide_eq_false hx]
          exact ih h
  · simp only [Bool.not_eq_true] at h
    simp only [h, Bool.false_eq_true, if_false]
    rw [List.find?_append]
    have hn : l.find? (fun x => decide (p x)) = none := List.find?_eq_none.mpr (fun x hx => by
      simpa using (List.any_eq_false.mp h) x hx)
    simp [hn, List.find?, hb]

/-!
Lemmas about the rank-relaxation loop.
-/

theorem relaxStep_mono (st : (String → ℤ) × Bool) (e : REdge) (s : String) :
    st.1 s ≤ (relaxStep st e).1 s := by
  unfold relaxStep
  split
  · next hlt =>
    by_cases hs : s = e.rw
    · subst hs
      simp only [Function.update_same]
      omega
    · simp [Function.update_noteq hs]
  · exact le_refl _

theorem relaxFold_mono (es : List REdge) (st : (String → ℤ) × Bool) (s : String) :
    st.1 s ≤ (es.foldl relaxStep st).1 s := by
  induction es generalizing st with
  | nil => exact le_refl _
  | cons e es ih => exact le_trans (relaxStep_mono st e s) (ih (relaxStep st e))

/-- Once the changed flag is set it stays set through the pass. -/
theorem relaxFold_flag (es : List REdge) (r : String → ℤ) :
    (es.foldl relaxStep (r, true)).2 = true := by
  apply foldl_preserves (P := fun st : (String → ℤ) × Bool => st.2 = true)
  · intro st e _ hst
    unfold relaxStep
    split
    · rfl
    · exact hst
  · rfl

/-- A pass that reports no change left the table untouched and found
every edge already feasible. -/
theorem relaxFold_false (es : List REdge) :
    ∀ (r : String → ℤ) (ch : Bool), (es.foldl relaxStep (r, ch)).2 = false →
      (es.foldl relaxStep (r, ch)).1 = r ∧ ch = false ∧
      ∀ e ∈ es, r e.rv + e.rminlen ≤ r e.rw := by
  induction es with
  | nil => exact fun r ch h => ⟨rfl, h, by simp⟩
  | cons e es ih =>
    intro r ch h
    simp only [List.foldl_cons] at h ⊢
    by_cases hlt : r e.rw < r e.rv + e.rminlen
    · exfalso
      have hstep : relaxStep (r, ch) e = (Function.update r e.rw (r e.rv + e.rminlen), true) := by
        simp [relaxStep, hlt]
      rw [hstep] at h
      rw [relaxFold_flag] at h
      exact Bool.true_eq_false.mp h
    · have hstep : relaxStep (r, ch) e = (r, ch) := by
        simp [relaxStep, hlt]
      rw [hstep] at h ⊢
      obtain ⟨h1, h2, h3⟩ := ih r ch h
      refine ⟨h1, h2, ?_⟩
      intro f hf
      rcases List.mem_cons.mp hf with rfl | hf
      · omega
      · exact h3 f hf

/-- A pass that reports a change either started with the flag set or
strictly increased the rank sum over the reference edge list. -/
theorem relaxFold_strict (es0 : List REdge) :
    ∀ (es : List REdge), (∀ x ∈ es, x ∈ es0) →
    ∀ (r : String → ℤ) (ch : Bool), (es.foldl relaxStep (r, ch)).2 = true →
      ch = true ∨ rankSum es0 r < rankSum es0 (es.foldl relaxStep (r, ch)).1 := by
  intro es
  induction es with
  | nil => exact fun _ r ch h => Or.inl h
  | cons e es ih =>
    intro hsub r ch h
    simp only [List.foldl_cons] at h ⊢
    by_cases hlt : r e.rw < r e.rv + e.rminlen
    · right
      have hstep : relaxStep (r, ch) e = (Function.update r e.rw (r e.rv + e.rminlen), true) := by
        simp [relaxStep, hlt]
      rw [hstep]
      have hstrict : rankSum es0 r < rankSum es0 (Function.update r e.rw (r e.rv + e.rminlen)) := by
        apply List.sum_lt_sum
        · intro x _
          by_cases hx : x.rw = e.rw
          · rw [hx]
            simp only [Function.update_same]
            omega
          · simp [Function.update_noteq hx]
        · exact ⟨e, hsub e (List.mem_cons_self e es), by simp [Function.update_same]; omega⟩
      refine lt_of_lt_of_le hstrict ?_
      apply List.sum_le_sum
      intro x _
      exact relaxFold_mono es (Function.update r e.rw (r e.rv + e.rminlen), true) x.rw
    · have hstep : relaxStep (r, ch) e = (r, ch) := by
        simp [relaxStep, hlt]
      rw [hstep] at h ⊢
      exact ih (fun x hx => hsub x (List.mem_cons_of_mem e hx)) r ch h

theorem maxMinlen_ge (es : List REdge) : ∀ e ∈ es, e.rminlen ≤ maxMinlen es := by
  induction es with
  | nil => simp
  | cons e es ih =>
    intro f hf
    rcases List.mem_cons.mp hf with rfl | hf
    · simp [maxMinlen]
    · calc f.rminlen ≤ maxMinlen es := ih f hf
        _ ≤ maxMinlen (e :: es) := by simp [maxMinlen]

theorem maxMinlen_one (es : List REdge) : 1 ≤ maxMinlen es := by
  induction es with
  | nil => simp [maxMinlen]
  | cons e es ih =>
    calc (1 : ℤ) ≤ maxMinlen es := ih
      _ ≤ maxMinlen (e :: es) := by simp [maxMinlen]

/-- The topological invariant: every rank stays below its topological
index times the largest minlen. -/
def RankInv (es : List REdge) (topo : String → ℕ) (r : String → ℤ) : Prop :=
  ∀ s, r s ≤ (topo s : ℤ) * maxMinlen es

theorem relaxFold_inv (es0 : List REdge) (topo : String → ℕ) (h : TopoOrdered es0 topo)
    (es : List REdge) (hsub : ∀ x ∈ es, x ∈ es0) (st : (String → ℤ) × Bool)
    (hst : RankInv es0 topo st.1) : RankInv es0 topo (es.foldl relaxStep st).1 := by
  refine foldl_preserves (P := fun st : (String → ℤ) × Bool => RankInv es0 topo st.1)
    relaxStep es ?_ st hst
  intro st e he hstP
  unfold relaxStep
  split
  · next hlt =>
    intro s
    by_cases hs : s = e.rw
    · subst hs
      simp only [Function.update_same]
      have h1 : st.1 e.rv ≤ (topo e.rv : ℤ) * maxMinlen es0 := hstP e.rv
      have h2 : e.rminlen ≤ maxMinlen es0 := maxMinlen_ge es0 e (hsub e he)
      have h3 : (topo e.rv : ℤ) + 1 ≤ (topo e.rw : ℤ) := by
        exact_mod_cast h e (hsub e he)
      have h4 : (0 : ℤ) ≤ maxMinlen es0 := le_trans one_pos.le (maxMinlen_one es0)
      nlinarith
    · simp only [Function.update_noteq hs]
      exact hstP s
  · exact hstP

theorem rankSum_le_bound (es : List REdge) (topo : String → ℕ) (r : String → ℤ)
    (h : RankInv es topo r) : rankSum es r ≤ rankSumBound es topo := by
  apply List.sum_le_sum
  intro e _
  exact h e.rw

/-- relaxPass specializations of the fold lemmas. -/
theorem relaxPass_false (es : List REdge) (r : String → ℤ) (h : (relaxPass es r).2 = false) :
    (relaxPass es r).1 = r ∧ ∀ e ∈ es, r e.rv + e.rminlen ≤ r e.rw := by
  unfold relaxPass at h ⊢
  obtain ⟨h1, _, h3⟩ := relaxFold_false es r false h
  exact ⟨h1, h3⟩

theorem relaxPass_strict (es : List REdge) (r : String → ℤ) (h : (relaxPass es r).2 = true) :
    rankSum es r < rankSum es (relaxPass es r).1 := by
  unfold relaxPass at h ⊢
  rcases relaxFold_strict es es (fun x hx => hx) r false h with hf | hs
  · exact absurd hf Bool.false_ne_true
  · exact hs

theorem relaxPass_inv (es : List REdge) (topo : String → ℕ) (h : TopoOrdered es topo)
    (r : String → ℤ) (hr : RankInv es topo r) : RankInv es topo (relaxPass es r).1 := by
  unfold relaxPass
  exact relaxFold_inv es topo h es (fun x hx => hx) (r, false) hr

/-- Fuel descent: from any state satisfying the invariant, the loop
reaches its exit within the remaining-sum budget. -/
theorem loopDone_of_bound (es : List REdge) (topo : String → ℕ) (h : TopoOrdered es topo) :
    ∀ (k : ℕ) (r : String → ℤ), RankInv es topo r →
      (rankSumBound es topo - rankSum es r).toNat ≤ k →
      loopDone es (k + 1) r = true := by
  intro k
  induction k with
  | zero =>
    intro r hinv hk
    show loopDone es 1 r = true
    unfold loopDone
    by_cases hch : (relaxPass es r).2 = true
    · exfalso
      have hstrict := relaxPass_strict es r hch
      have hinv2 : RankInv es topo (relaxPass es r).1 := relaxPass_inv es topo h r hinv
      have hb := rankSum_le_bound es topo (relaxPass es r).1 hinv2
      omega
    · simp only [Bool.not_eq_true] at hch
      simp [hch]
  | succ k ih =>
    intro r hinv hk
    show loopDone es (k + 2) r = true
    unfold loopDone
    by_cases hch : (relaxPass es r).2 = true
    · simp only [hch, if_true]
      have hstrict := relaxPass_strict es r hch
      have hinv2 : RankInv es topo (relaxPass es r).1 := relaxPass_inv es topo h r hinv
      apply ih (relaxPass es r).1 hinv2
      have hb := rankSum_le_bound es topo (relaxPass es r).1 hinv2
      omega
    · simp only [Bool.not_eq_true] at hch
      simp [hch]

/-- The invariant holds for the all-zero start. -/
theorem rankInv_zero (es : List REdge) (topo : String → ℕ) : RankInv es topo zeroRanks := by
  intro s
  have h1 : (0 : ℤ) ≤ (topo s : ℤ) := Int.ofNat_nonneg _
  have h2 : (0 : ℤ) ≤ maxMinlen es := le_trans one_pos.le (maxMinlen_one es)
  simpa [zeroRanks] using mul_nonneg h1 h2

/-- The zero table has rank sum zero. -/
theorem rankSum_zero (es : List REdge) : rankSum es zeroRanks = 0 := by
  unfold rankSum zeroRanks
  simp

/-- The loop exit is reached within the computed fuel on any edge list
with a topological order (shared helper behind two claims). -/
theorem loopDone_rankFuel (es : List REdge) (topo : String → ℕ) (h : TopoOrdered es topo) :
    loopDone es (rankFuel es topo) zeroRanks = true := by
  unfold rankFuel
  apply loopDone_of_bound es topo h _ zeroRanks (rankInv_zero es topo)
  rw [rankSum_zero]
  omega

/-- When the loop exits by reaching a pass with no change, the final
table satisfies every edge constraint. -/
theorem loopRanks_feasible (es : List REdge) :
    ∀ (fuel : ℕ) (r : String → ℤ), loopDone es fuel r = true →
      ∀ e ∈ es, loopRanks es fuel r e.rv + e.rminlen ≤ loopRanks es fuel r e.rw := by
  intro fuel
  induction fuel with
  | zero => exact fun r h => absurd h (by simp [loopDone])
  | succ fuel ih =>
    intro r h e he
    rw [loopDone] at h
    rw [loopRanks]
    by_cases hch : (relaxPass es r).2 = true
    · simp only [hch, if_true] at h ⊢
      exact ih (relaxPass es r).1 h e he
    · simp only [Bool.not_eq_true] at hch
      simp only [hch, Bool.false_eq_true, if_false]
      obtain ⟨h1, h3⟩ := relaxPass_false es r hch
      rw [h1]
      exact h3 e he

/-!
Lemmas for the edge-restoration claim: the makeAcyclic trace, the
restore loop, and preservation of edges by the intermediate phases.
-/

theorem involutive_iterate {α : Type} (f : α → α) (hf : ∀ x, f (f x) = x) (k : ℕ) (x : α) :
    f^[k] x = if k % 2 = 1 then f x else x := by
  induction k generalizing x with
  | zero => simp
  | succ k ih =>
    rw [Function.iterate_succ_apply, ih (f x)]
    rcases Nat.even_or_odd k with he | ho
    · have h1 : k % 2 = 0 := Nat.even_iff.mp he
      have h2 : (k + 1) % 2 = 1 := by omega
      simp [h1, h2]
    · have h1 : k % 2 = 1 := Nat.odd_iff.mp ho
      have h2 : (k + 1) % 2 = 0 := by omega
      simp [h1, h2, hf x]

theorem vwFlip_invol (p : String × String) : vwFlip (vwFlip p) = p := rfl

theorem restoreStep_invol (e : GEdge) : restoreStep (restoreStep e) = e := by
  cases e
  simp [restoreStep]

theorem vwOf_restoreStep (e : GEdge) : vwOf (restoreStep e) = vwFlip (vwOf e) := rfl

theorem vwOf_flipVW (e : GEdge) : vwOf (flipVW e) = vwFlip (vwOf e) := rfl

/-- The restore loop acts at each index as restoreStep iterated once
per occurrence of the index in the record. -/
theorem restoreEdges_getElem? (rev : List ℕ) :
    ∀ (es : List GEdge) (i : ℕ),
      (restoreEdges rev es)[i]? = (es[i]?).map (restoreStep^[rev.count i]) := by
  induction rev with
  | nil =>
    intro es i
    simp [restoreEdges]
  | cons j rev ih =>
    intro es i
    have hunf : restoreEdges (j :: rev) es
        = restoreEdges rev (match es[j]? with
            | some e => es.set j (restoreStep e)
            | none => es) := by
      simp only [restoreEdges, List.foldl_cons]
      rcases h : es[j]? with _ | e
      · simp only [List.get?_eq_getElem?, h]
      · simp only [List.get?_eq_getElem?, h]
    rw [hunf]
    rcases h : es[j]? with _ | e
    · rw [ih es i]
      by_cases hij : j = i
      · subst hij
        rw [h]
        simp
      · have : (j :: rev).count i = rev.count i := by
          simp [List.count_cons, hij]
        rw [this]
    · by_cases hij : j = i
      · subst hij
        rw [ih _ j]
        have hset : (es.set j (restoreStep e))[j]? = some (restoreStep e) := by
          have hlen : j < es.length := (List.getElem?_eq_some.mp h).1
          simp [List.getElem?_set_self, hlen]
        rw [hset, h]
        have hcount : (j :: rev).count j = rev.count j + 1 := by
          simp [List.count_cons]
        rw [hcount]
        simp [Function.iterate_succ_apply]
      · rw [ih _ i]
        have hset : (es.set j (restoreStep e))[i]? = es[i]? :=
          List.getElem?_set_ne hij
        rw [hset]
        have : (j :: rev).count i = rev.count i := by
          simp [List.count_cons, hij]
        rw [this]

theorem adjustContainerSizesG_edges (g : Graph) :
    (adjustContainerSizesG g).edges = g.edges := by
  unfold adjustContainerSizesG
  split
  · apply foldl_preserves (P := fun g' : Graph => g'.edges = g.edges)
    · intro g' p _ h
      simpa [adjustOneParent] using h
    · rfl
  · rfl

theorem routeOneEdge_vw (g : Graph) (rd : String) (e : GEdge) :
    vwOf (routeOneEdge g rd e) = vwOf e := by
  unfold routeOneEdge
  cases g.GetNode e.v <;> cases g.GetNode e.w <;> rfl

theorem routeEdgesG_vw (g : Graph) (i : ℕ) :
    ((routeEdgesG g).edges[i]?).map vwOf = (g.edges[i]?).map vwOf := by
  show ((g.edges.map (routeOneEdge g (g.getS "rankdir")))[i]?).map vwOf = _
  rw [List.getElem?_map]
  rcases h : g.edges[i]? with _ | e
  · rfl
  · simp [routeOneEdge_vw]

/-- The trace depends only on the edge list and the record. -/
theorem edgesTrace_ext (orig : List GEdge) (st st' : AcySt) (ha : st'.aedges = st.aedges)
    (hr : st'.rev = st.rev) (h : EdgesTrace orig st) : EdgesTrace orig st' := by
  intro i
  unfold EdgesTrace at h
  rw [ha, hr]
  exact h i

/-- The DFS of makeAcyclic maintains the edge trace. -/
theorem dfsAcy_trace (orig : List GEdge) :
    ∀ (fuel : ℕ) (v : String) (st : AcySt),
      EdgesTrace orig st → EdgesTrace orig (dfsAcy fuel v st) := by
  intro fuel
  induction fuel with
  | zero => exact fun v st h => h
  | succ fuel ih =>
    intro v st h
    show EdgesTrace orig (dfsAcy (fuel + 1) v st)
    rw [dfsAcy]
    have hbody : ∀ (st' : AcySt) (i : ℕ), EdgesTrace orig st' →
        EdgesTrace orig (dfsBody (dfsAcy fuel) st' i) := by
      intro st' i hst'
      unfold dfsBody
      rcases hgd : st'.aedges.get? i with _ | e
      · exact hst'
      · by_cases hvis : e.w ∈ st'.visited
        · simp only [if_pos hvis]
          by_cases hstk : e.w ∈ st'.onStack
          · simp only [if_pos hstk]
            intro j
            show ((st'.aedges.set i (flipVW e)).get? j).map vwOf
              = (orig.get? j).map (fun f => vwFlip^[(st'.rev ++ [i]).count j] (vwOf f))
            by_cases hij : i = j
            · subst hij
              have hlen : i < st'.aedges.length :=
                (List.getElem?_eq_some.mp (by simpa using hgd)).1
              rw [List.get?_eq_getElem?, List.getElem?_set_self hlen]
              have hcount : (st'.rev ++ [i]).count i = st'.rev.count i + 1 := by
                simp [List.count_append]
              rw [hcount]
              have hold := hst' i
              rw [hgd] at hold
              rcases horig : orig.get? i with _ | e0
              · rw [horig] at hold
                simp at hold
              · rw [horig] at hold
                simp only [Option.map_some'] at hold ⊢
                rw [Function.iterate_succ_apply', vwOf_flipVW]
                exact congrArg (fun p => some (vwFlip p)) (Option.some.inj hold)
            · rw [List.get?_eq_getElem?, List.getElem?_set_ne hij]
              have hcount : (st'.rev ++ [i]).count j = st'.rev.count j := by
                simp [List.count_append, List.count_singleton']
                omega
              rw [hcount]
              have := hst' j
              rwa [List.get?_eq_getElem?] at this
          · simp only [if_neg hstk]
            exact hst'
        · simp only [if_neg hvis]
          exact ih e.w st' hst'
    refine edgesTrace_ext orig _ _ rfl rfl ?_
    unfold dfsScan
    refine foldl_preserves (P := EdgesTrace orig) _ _ (fun b a _ hb => hbody b a hb) _ ?_
    exact edgesTrace_ext orig st _ rfl rfl h

/-- makeAcyclic establishes the trace from the original edge list. -/
theorem makeAcyclicSt_trace (g : Graph) : EdgesTrace g.edges (makeAcyclicSt g) := by
  unfold makeAcyclicSt
  refine foldl_preserves (P := EdgesTrace g.edges) _ _ (fun st v _ hst => ?_) _ ?_
  · by_cases hv : v ∈ st.visited
    · simpa [hv] using hst
    · simp only [hv, if_false]
      exact dfsAcy_trace g.edges _ v st hst
  · intro i
    cases g.edges.get? i <;> simp

/-- Scanning the out-edges of v under a strict topological order on
the current edge list meets no back edge: with a stack dominated by v,
the edges, the record and the stack come back unchanged. -/
theorem dfsScan_no_back_edge (orig : List GEdge) (topo : String → ℕ)
    (htopo : ∀ e ∈ orig, topo e.v < topo e.w) (fuel : ℕ)
    (IH : ∀ (w : String) (s : AcySt), s.aedges = orig → s.rev = [] →
        (∀ u ∈ s.onStack, topo u < topo w) →
        (dfsAcy fuel w s).aedges = orig ∧ (dfsAcy fuel w s).rev = [] ∧
        (dfsAcy fuel w s).onStack = s.onStack)
    (v : String) (st1 : AcySt) (h1 : st1.aedges = orig) (h2 : st1.rev = [])
    (hdom : ∀ u ∈ st1.onStack, topo u ≤ topo v) :
    (dfsScan (dfsAcy fuel) v st1).aedges = orig ∧
    (dfsScan (dfsAcy fuel) v st1).rev = [] ∧
    (dfsScan (dfsAcy fuel) v st1).onStack = st1.onStack := by
  unfold dfsScan
  refine foldl_preserves
    (P := fun s : AcySt => s.aedges = orig ∧ s.rev = [] ∧ s.onStack = st1.onStack)
    _ _ ?_ _ ⟨h1, h2, rfl⟩
  intro s i hi hs
  obtain ⟨ha, hr, ho⟩ := hs
  have hpred := (List.mem_filter.mp hi).2
  unfold dfsBody
  rcases hg : s.aedges.get? i with _ | e
  · exact ⟨ha, hr, ho⟩
  · have hg1 : st1.aedges.get? i = some e := by rw [h1, ← ha]; exact hg
    rw [hg1] at hpred
    have hev : e.v = v := of_decide_eq_true hpred
    have hemem : e ∈ orig := by
      rw [ha] at hg
      exact List.get?_mem hg
    have hvw : topo v < topo e.w := hev ▸ htopo e hemem
    by_cases hvis : e.w ∈ s.visited
    · simp only [if_pos hvis]
      by_cases hstk : e.w ∈ s.onStack
      · exact absurd (hdom e.w (ho ▸ hstk)) (not_le_of_lt hvw)
      · simp only [if_neg hstk]
        exact ⟨ha, hr, ho⟩
    · simp only [if_neg hvis]
      have hrec := IH e.w s ha hr (fun u hu => lt_of_le_of_lt (hdom u (ho ▸ hu)) hvw)
      exact ⟨hrec.1, hrec.2.1, by rw [hrec.2.2, ho]⟩

/-- Under a strict topological order the DFS of makeAcyclic reverses
nothing: edges and record are untouched and the stack is restored on
return. -/
theorem dfsAcy_no_back_edge (orig : List GEdge) (topo : String → ℕ)
    (htopo : ∀ e ∈ orig, topo e.v < topo e.w) :
    ∀ (fuel : ℕ) (v : String) (st : AcySt),
      st.aedges = orig → st.rev = [] → (∀ u ∈ st.onStack, topo u < topo v) →
      (dfsAcy fuel v st).aedges = orig ∧ (dfsAcy fuel v st).rev = [] ∧
      (dfsAcy fuel v st).onStack = st.onStack := by
  intro fuel
  induction fuel with
  | zero => exact fun v st h1 h2 _ => ⟨h1, h2, rfl⟩
  | succ fuel ih =>
    intro v st h1 h2 h3
    have hvstk : v ∉ st.onStack := fun hv => lt_irrefl _ (h3 v hv)
    have hscan := dfsScan_no_back_edge orig topo htopo fuel ih v
      { st with visited := v :: st.visited, onStack := v :: st.onStack }
      h1 h2 (fun u hu => by
        rcases List.mem_cons.mp hu with h' | h'
        · exact le_of_eq (congrArg topo h')
        · exact le_of_lt (h3 u h'))
    obtain ⟨ha, hr, ho⟩ := hscan
    rw [dfsAcy]
    refine ⟨ha, hr, ?_⟩
    show (dfsScan (dfsAcy fuel) v
        { st with visited := v :: st.visited, onStack := v :: st.onStack }).onStack.filter
        (fun u => u ≠ v) = st.onStack
    rw [ho]
    show (v :: st.onStack).filter (fun u => u ≠ v) = st.onStack
    rw [List.filter_cons, if_neg (by simp)]
    refine List.filter_eq_self.mpr (fun a ha2 => ?_)
    simp only [ne_eq, decide_not, Bool.not_eq_true', decide_eq_false_iff_not]
    exact fun h => hvstk (h ▸ ha2)

/-- On a graph with a strict topological order makeAcyclic finds no
back edge: the edge list is unchanged and the reversal record is
empty. -/
theorem makeAcyclic_no_rev (g : Graph) (topo : String → ℕ) (h : GraphTopo g topo) :
    (makeAcyclicSt g).aedges = g.edges ∧ (makeAcyclicSt g).rev = [] := by
  unfold makeAcyclicSt
  have hmain := foldl_preserves
    (P := fun st : AcySt => st.aedges = g.edges ∧ st.rev = [] ∧ st.onStack = [])
    (fun st v => if v ∈ st.visited then st else dfsAcy (acyFuel g) v st) g.Nodes
    (fun st v _ hst => by
      obtain ⟨ha, hr, ho⟩ := hst
      by_cases hv : v ∈ st.visited
      · simp only [if_pos hv]
        exact ⟨ha, hr, ho⟩
      · simp only [if_neg hv]
        have hout := dfsAcy_no_back_edge g.edges topo h (acyFuel g) v st ha hr
          (fun u hu => absurd (ho ▸ hu) (List.not_mem_nil u))
        exact ⟨hout.1, hout.2.1, by rw [hout.2.2, ho]⟩)
    { aedges := g.edges, visited := [], onStack := [], rev := [] } ⟨rfl, rfl, rfl⟩
  exact ⟨hmain.1, hmain.2.1⟩

theorem involutive_iterate_twice {α : Type} (f : α → α) (hf : ∀ x, f (f x) = x)
    (k : ℕ) (x : α) : f^[k] (f^[k] x) = x := by
  by_cases hk : k % 2 = 1 <;> simp [involutive_iterate f hf, hk, hf x]

theorem vwOf_restoreStep_iter (k : ℕ) (e : GEdge) :
    vwOf (restoreStep^[k] e) = vwFlip^[k] (vwOf e) := by
  induction k generalizing e with
  | zero => rfl
  | succ k ih =>
    rw [Function.iterate_succ_apply, Function.iterate_succ_apply, ih (restoreStep e),
      vwOf_restoreStep]

theorem points_restoreStep_iter (k : ℕ) (e : GEdge) :
    (restoreStep^[k] e).points = if k % 2 = 1 then e.points.reverse else e.points := by
  rw [involutive_iterate restoreStep restoreStep_invol]
  split <;> rfl

/-- The phases between makeAcyclic and the restore loop keep the edge
endpoints: ranking, ordering, positioning and container adjustment do
not touch the edge list, and routing only writes points and anchors. -/
theorem phases_vw (fuel : ℕ) (X : Graph) (i : ℕ) :
    ((routeEdgesG (adjustContainerSizesG (assignPositionsG (orderNodesG
        (assignRanksG fuel X))))).edges[i]?).map vwOf = (X.edges[i]?).map vwOf := by
  rw [routeEdgesG_vw, adjustContainerSizesG_edges]
  rfl

/-- The edge list of the phase pipeline in terms of the makeAcyclic
trace: at every index the endpoints are the original ones swapped once
per recorded reversal of that index. -/
theorem layoutPhases_vw (fuel : ℕ) (opts : LOpts) (g : Graph) (i : ℕ) :
    (((layoutPhases fuel opts g).1.edges[i]?).map vwOf)
      = (g.edges[i]?).map (fun e => vwFlip^[(layoutPhases fuel opts g).2.count i] (vwOf e)) := by
  have h1 : (layoutPhases fuel opts g).1 = routeEdgesG (adjustContainerSizesG
      (assignPositionsG (orderNodesG (assignRanksG fuel
        (makeAcyclicG (g.SetGraphA
          [("nodesep", AVal.fq opts.nodeSepO), ("edgesep", AVal.fq opts.edgeSepO),
           ("ranksep", AVal.fq opts.rankSepO), ("rankdir", AVal.sv opts.rankDirO),
           ("align", AVal.sv opts.alignO), ("ranker", AVal.sv opts.rankerO),
           ("acyclicer", AVal.sv opts.acyclicerO)])).1)))) := rfl
  have h2 : (layoutPhases fuel opts g).2 = (makeAcyclicSt (g.SetGraphA
      [("nodesep", AVal.fq opts.nodeSepO), ("edgesep", AVal.fq opts.edgeSepO),
       ("ranksep", AVal.fq opts.rankSepO), ("rankdir", AVal.sv opts.rankDirO),
       ("align", AVal.sv opts.alignO), ("ranker", AVal.sv opts.rankerO),
       ("acyclicer", AVal.sv opts.acyclicerO)])).rev := rfl
  rw [h1, h2, phases_vw]
  have htr := makeAcyclicSt_trace (g.SetGraphA
      [("nodesep", AVal.fq opts.nodeSepO), ("edgesep", AVal.fq opts.edgeSepO),
       ("ranksep", AVal.fq opts.rankSepO), ("rankdir", AVal.sv opts.rankDirO),
       ("align", AVal.sv opts.alignO), ("ranker", AVal.sv opts.rankerO),
       ("acyclicer", AVal.sv opts.acyclicerO)]) i
  simpa using htr

theorem calcDims_vw (g : Graph) (i : ℕ) :
    ((calculateGraphDimensionsG g).edges[i]?).map vwOf = (g.edges[i]?).map vwOf := by
  unfold calculateGraphDimensionsG
  dsimp only [Graph.SetGraphA]
  split
  · dsimp only
    rw [adjustContainerSizesG_edges, List.getElem?_map]
    cases g.edges[i]? <;> rfl
  · dsimp only
    rw [adjustContainerSizesG_edges]

theorem calcDims_points (g : Graph) (i : ℕ) :
    ((calculateGraphDimensionsG g).edges[i]?).map (fun e => e.points)
      = (g.edges[i]?).map (fun e => e.points) := by
  unfold calculateGraphDimensionsG
  dsimp only [Graph.SetGraphA]
  split
  · dsimp only
    rw [adjustContainerSizesG_edges, List.getElem?_map]
    cases g.edges[i]? <;> rfl
  · dsimp only
    rw [adjustContainerSizesG_edges]

/-- Claim C3: after Layout returns, every edge carries its pre-layout
source and target (the endpoint swaps of cycle removal are undone by
the restore loop, whatever the DFS reversed), and the point list of an
edge that was restored an odd number of times is the reverse of its
routed point list, matching the restored direction; edges restored an
even number of times keep their routed points. -/
theorem layout_restores_edges (fuel : ℕ) (opts : LOpts) (g : Graph) (i : ℕ) :
    ((LayoutM fuel opts g).edges[i]?).map vwOf = (g.edges[i]?).map vwOf ∧
    ((LayoutM fuel opts g).edges[i]?).map (fun e => e.points)
      = ((layoutPhases fuel opts g).1.edges[i]?).map (fun e =>
          if (layoutPhases fuel opts g).2.count i % 2 = 1 then e.points.reverse
          else e.points) := by
  have hL : LayoutM fuel opts g = calculateGraphDimensionsG
      { (layoutPhases fuel opts g).1 with
        edges := restoreEdges (layoutPhases fuel opts g).2
          (layoutPhases fuel opts g).1.edges } := rfl
  constructor
  · rw [hL, calcDims_vw]
    show ((restoreEdges (layoutPhases fuel opts g).2
        (layoutPhases fuel opts g).1.edges)[i]?).map vwOf = _
    rw [restoreEdges_getElem?]
    have h1 : (((layoutPhases fuel opts g).1.edges[i]?).map
          (restoreStep^[(layoutPhases fuel opts g).2.count i])).map vwOf
        = (((layoutPhases fuel opts g).1.edges[i]?).map vwOf).map
            (vwFlip^[(layoutPhases fuel opts g).2.count i]) := by
      cases (layoutPhases fuel opts g).1.edges[i]? <;> simp [vwOf_restoreStep_iter]
    rw [h1, layoutPhases_vw]
    cases g.edges[i]? with
    | none => rfl
    | some e => simp [involutive_iterate_twice vwFlip vwFlip_invol]
  · rw [hL, calcDims_points]
    show ((restoreEdges (layoutPhases fuel opts g).2
        (layoutPhases fuel opts g).1.edges)[i]?).map (fun e => e.points) = _
    rw [restoreEdges_getElem?]
    cases (layoutPhases fuel opts g).1.edges[i]? <;> simp [points_restoreStep_iter]

/-- Claim C9 (amended): the longest-path relaxation loop reaches its
fixed point on every edge list admitting a strict topological order
(which every acyclic graph does), within rankSumBound plus one
passes — ranks only grow and are bounded by the topological index
times the largest minlen. -/
theorem rank_loop_terminates_acyclic (es : List REdge) (topo : String → ℕ)
    (h : TopoOrdered es topo) :
    loopDone es (rankFuel es topo) zeroRanks = true :=
  loopDone_rankFuel es topo h

/-- Witness for C9 on the diamond graph. -/
theorem rank_loop_terminates_acyclic_witness :
    TopoOrdered (rankEdgesOf gDiamond) topoDiamond ∧
    loopDone (rankEdgesOf gDiamond) (rankFuel (rankEdgesOf gDiamond) topoDiamond)
      zeroRanks = true :=
  ⟨by decide, rank_loop_terminates_acyclic (rankEdgesOf gDiamond) topoDiamond (by decide)⟩

/-- Claim C9, counterexample for the parenthetical part: a graph may
still contain a self-loop after cycle removal (makeAcyclic only swaps
source and target of a back edge, which leaves a self-loop in place),
and on it the relaxation loop never reaches a fixed point: the edge
from a to a is relaxed by every pass. -/
theorem selfLoop_rank_loop_diverges :
    ((makeAcyclicG gLoop).1.edges.map (fun e => (e.v, e.w)) = [("a", "a")]) ∧
    ¬ ∃ k, loopDone (rankEdges1 (makeAcyclicG gLoop).1) k zeroRanks = true := by
  refine ⟨by decide, ?_⟩
  have hes : rankEdges1 (makeAcyclicG gLoop).1 = [⟨"a", "a", 1⟩] := by decide
  rw [hes]
  have hstep : ∀ r : String → ℤ, (relaxPass [(⟨"a", "a", 1⟩ : REdge)] r).2 = true := by
    intro r
    show (relaxStep (r, false) ⟨"a", "a", 1⟩).2 = true
    unfold relaxStep
    rw [if_pos (lt_add_one (r "a"))]
  have hnever : ∀ (k : ℕ) (r : String → ℤ),
      loopDone [(⟨"a", "a", 1⟩ : REdge)] k r = false := by
    intro k
    induction k with
    | zero => intro r; rfl
    | succ k ih =>
      intro r
      show (if (relaxPass [(⟨"a", "a", 1⟩ : REdge)] r).2 = true
            then loopDone [(⟨"a", "a", 1⟩ : REdge)] k (relaxPass [(⟨"a", "a", 1⟩ : REdge)] r).1
            else true) = false
      rw [hstep r, if_pos rfl]
      exact ih _
  rintro ⟨k, hk⟩
  rw [hnever k zeroRanks] at hk
  exact Bool.false_ne_true hk

/-- Claim C2: after rank assignment on an acyclic input (any graph
with a strict topological order), every edge satisfies the rank
constraint in its original direction: cycle removal reverses nothing
on such a graph (the graph comes back unchanged with an empty
reversal record, so stored directions are the original ones),
longestPath leaves rank w at least rank v plus the stored minlen, and
assignRanks of layout.go (the same loop with minlen 1 on every edge,
the default) leaves the rank written on the target node at least one
above the rank written on the source node. -/
theorem rank_feasibility (g : Graph) (topo : String → ℕ) (h : GraphTopo g topo) :
    ((makeAcyclicG g).1 = g ∧ (makeAcyclicG g).2 = []) ∧
    (∀ e ∈ g.edges,
      loopRanks (rankEdgesOf g) (rankFuel (rankEdgesOf g) topo) zeroRanks e.v + e.minlen
        ≤ loopRanks (rankEdgesOf g) (rankFuel (rankEdgesOf g) topo) zeroRanks e.w) ∧
    (∀ e ∈ g.edges, ∀ nv nw,
      (assignRanksG (rankFuel (rankEdges1 g) topo) g).GetNode e.v = some nv →
      (assignRanksG (rankFuel (rankEdges1 g) topo) g).GetNode e.w = some nw →
      nv.rank + 1 ≤ nw.rank) := by
  have hacy := makeAcyclic_no_rev g topo h
  have htopoOf : TopoOrdered (rankEdgesOf g) topo := by
    intro re hre
    unfold rankEdgesOf at hre
    obtain ⟨e, he, rfl⟩ := List.mem_map.mp hre
    exact h e he
  have htopo1 : TopoOrdered (rankEdges1 g) topo := by
    intro re hre
    unfold rankEdges1 at hre
    obtain ⟨e, he, rfl⟩ := List.mem_map.mp hre
    exact h e he
  refine ⟨⟨?_, hacy.2⟩, ?_, ?_⟩
  · show { g with edges := (makeAcyclicSt g).aedges } = g
    rw [hacy.1]
  · intro e he
    have hmem : (⟨e.v, e.w, e.minlen⟩ : REdge) ∈ rankEdgesOf g := by
      unfold rankEdgesOf
      exact List.mem_map.mpr ⟨e, he, rfl⟩
    exact loopRanks_feasible (rankEdgesOf g) _ zeroRanks
      (loopDone_rankFuel (rankEdgesOf g) topo htopoOf) _ hmem
  · intro e he nv nw hv hw
    have hmem : (⟨e.v, e.w, 1⟩ : REdge) ∈ rankEdges1 g := by
      unfold rankEdges1
      exact List.mem_map.mpr ⟨e, he, rfl⟩
    have hfeas := loopRanks_feasible (rankEdges1 g) _ zeroRanks
      (loopDone_rankFuel (rankEdges1 g) topo htopo1) _ hmem
    -- read the node ranks written by assignRanks off the rank table
    have hnode : ∀ (id : String) (n : GNode),
        (assignRanksG (rankFuel (rankEdges1 g) topo) g).GetNode id = some n →
        n.rank = loopRanks (rankEdges1 g) (rankFuel (rankEdges1 g) topo) zeroRanks id := by
      intro id n hn
      unfold assignRanksG Graph.GetNode at hn
      rw [List.find?_map] at hn
      obtain ⟨m, hm, rfl⟩ := Option.map_eq_some'.mp hn
      have hid := List.find?_some hm
      simp only [Function.comp, decide_eq_true_eq] at hid
      simp [hid]
    rw [hnode e.v nv hv, hnode e.w nw hw]
    exact hfeas

/-- Witness for C2 on the diamond graph. -/
theorem rank_feasibility_witness :
    GraphTopo gDiamond topoDiamond ∧
    (((makeAcyclicG gDiamond).1 = gDiamond ∧ (makeAcyclicG gDiamond).2 = []) ∧
    (∀ e ∈ gDiamond.edges,
      loopRanks (rankEdgesOf gDiamond) (rankFuel (rankEdgesOf gDiamond) topoDiamond)
          zeroRanks e.v + e.minlen
        ≤ loopRanks (rankEdgesOf gDiamond) (rankFuel (rankEdgesOf gDiamond) topoDiamond)
          zeroRanks e.w) ∧
    (∀ e ∈ gDiamond.edges, ∀ nv nw,
      (assignRanksG (rankFuel (rankEdges1 gDiamond) topoDiamond) gDiamond).GetNode e.v
          = some nv →
      (assignRanksG (rankFuel (rankEdges1 gDiamond) topoDiamond) gDiamond).GetNode e.w
          = some nw →
      nv.rank + 1 ≤ nw.rank)) :=
  ⟨by decide, rank_feasibility gDiamond topoDiamond (by decide)⟩

/-- Claim C10: calling SetNode for a node id already present replaces
the stored node by a freshly constructed one whose rank, order and
position are zero and whose width, height and attribute bag come only
from the new attribute map (anything else previously stored is gone),
while NodeCount stays unchanged. -/
theorem setNode_replaces_existing (g : Graph) (id : String) (attrs : List (String × AVal))
    (h : g.nodes.any (fun n => n.id = id) = true) :
    (g.SetNode id attrs).NodeCount = g.NodeCount ∧
    (g.SetNode id attrs).GetNode id = some
      { id := id, width := numAttr attrs "width", height := numAttr attrs "height",
        x := 0, y := 0, rank := 0, order := 0, dummy := false,
        attrs := attrs.filter (fun p => p.1 ≠ "width" ∧ p.1 ≠ "height") } := by
  constructor
  · simp [Graph.SetNode, Graph.NodeCount, h]
  · simp only [Graph.GetNode, Graph.SetNode]
    refine upsert_find? (fun n => n.id = id) _ g.nodes ?_
    rfl

/-- Witness for C10 at a concrete graph: the node a (100 by 50, with a
color attribute and a nonzero position after an earlier layout step)
is replaced by the fresh 7 by 0 node with an empty bag. -/
theorem setNode_replaces_existing_witness :
    (gC1.nodes.any (fun n => n.id = "a") = true) ∧
    ((gC1.SetNode "a" [("width", AVal.iv 7)]).NodeCount = gC1.NodeCount ∧
     (gC1.SetNode "a" [("width", AVal.iv 7)]).GetNode "a" = some
       { id := "a", width := numAttr [("width", AVal.iv 7)] "width",
         height := numAttr [("width", AVal.iv 7)] "height",
         x := 0, y := 0, rank := 0, order := 0, dummy := false,
         attrs := [("width", AVal.iv 7)].filter (fun p => p.1 ≠ "width" ∧ p.1 ≠ "height") }) :=
  ⟨by decide, setNode_replaces_existing gC1 "a" [("width", AVal.iv 7)] (by decide)⟩

/-- Claim C8, counterexample: SetEdge with an empty attribute map
stores an edge whose weight is 0 and whose minimum length is 0, not
the claimed defaults 1 and 1. -/
theorem setEdge_defaults_counterexample :
    (((NewGraph { directedO := true }).SetEdge "a" "b" [] "").GetEdge "a" "b" "").map
        (fun e => (e.weight, e.minlen)) = some (0, 0) ∧
      (((0 : ℚ), (0 : ℤ)) ≠ ((1 : ℚ), (1 : ℤ))) :=
  ⟨by decide, by decide⟩

/-- Claim C8 (amended): SetEdge itself leaves weight and minlen at
their zero values whatever the attribute map says; the defaults
weight 1 and minlen 1 are applied by initNetworkSimplex when it copies
the edges into the simplex graph, for every edge whose attribute bag
carries no weight and no minlen entry. -/
theorem setEdge_and_simplex_defaults (g : Graph) (v w name : String)
    (attrs : List (String × AVal))
    (hall : ∀ e ∈ g.edges, alookup e.attrs "weight" = none ∧ alookup e.attrs "minlen" = none) :
    (((g.SetEdge v w attrs name).GetEdge v w name).map (fun e => (e.weight, e.minlen))
        = some (0, 0)) ∧
    (∀ e ∈ (initNetworkSimplexM g).edges, e.weight = 1 ∧ e.minlen = 1) := by
  constructor
  · simp only [Graph.GetEdge, Graph.SetEdge, Graph.edgeKey]
    rw [upsert_find? (fun e =>
        (if g.multigraph ∧ e.name ≠ "" then e.v ++ "->" ++ e.w ++ "[" ++ e.name ++ "]"
         else e.v ++ "->" ++ e.w)
        = (if g.multigraph ∧ name ≠ "" then v ++ "->" ++ w ++ "[" ++ name ++ "]"
           else v ++ "->" ++ w)) _ g.edges rfl]
    rfl
  · -- the base graph of the edge fold has no edges
    have hbase : (g.nodes.foldl
        (fun (sg : Graph) n =>
          let sg := sg.SetNode n.id []
          { sg with nodes := sg.nodes.map (fun m =>
              if m.id = n.id then { m with width := n.width, height := n.height } else m) })
        (NewGraph { directedO := true })).edges = [] := by
      apply foldl_preserves (P := fun sg : Graph => sg.edges = [])
      · intro sg n _ hsg
        simpa [Graph.SetNode] using hsg
      · rfl
    unfold initNetworkSimplexM
    apply foldl_preserves (P := fun sg : Graph => ∀ e ∈ sg.edges, e.weight = 1 ∧ e.minlen = 1)
    · intro sg e he hsg
      intro e' he'
      simp only [List.mem_map] at he'
      obtain ⟨f, hf, rfl⟩ := he'
      by_cases hk : (sg.SetEdge e.v e.w [] e.name).edgeKey f.v f.w f.name
          = (sg.SetEdge e.v e.w [] e.name).edgeKey e.v e.w e.name
      · rw [if_pos hk]
        refine ⟨?_, ?_⟩ <;> simp [(hall e he).1, (hall e he).2]
      · rw [if_neg hk]
        -- f comes from the SetEdge result; the fresh edge matches the key,
        -- so f must be an old edge, which already satisfies the invariant
        have hmem : f ∈ (sg.SetEdge e.v e.w [] e.name).edges := hf
        simp only [Graph.SetEdge] at hmem
        by_cases hex : sg.edges.any
            (fun e0 => sg.edgeKey e0.v e0.w e0.name = sg.edgeKey e.v e.w e.name) = true
        · rw [if_pos hex] at hmem
          simp only [List.mem_map] at hmem
          obtain ⟨f0, hf0, hf0e⟩ := hmem
          by_cases hk0 : sg.edgeKey f0.v f0.w f0.name = sg.edgeKey e.v e.w e.name
          · rw [if_pos hk0] at hf0e
            exfalso
            apply hk
            rw [← hf0e]
          · rw [if_neg hk0] at hf0e
            exact hf0e ▸ hsg f0 hf0
        · rw [if_neg (by simpa using hex)] at hmem
          rcases List.mem_append.mp hmem with hold | hnew
          · exact hsg f hold
          · exfalso
            apply hk
            rw [List.mem_singleton.mp hnew]
    · intro e' he'
      rw [hbase] at he'
      exact absurd he' (List.not_mem_nil e')

/-- Witness for the amended C8: the diamond graph, whose edges all
have empty attribute bags. -/
theorem setEdge_and_simplex_defaults_witness :
    (∀ e ∈ gDiamond.edges, alookup e.attrs "weight" = none ∧ alookup e.attrs "minlen" = none)
    ∧ ((((gDiamond.SetEdge "a" "d" [] "x").GetEdge "a" "d" "x").map
          (fun e => (e.weight, e.minlen)) = some (0, 0)) ∧
       (∀ e ∈ (initNetworkSimplexM gDiamond).edges, e.weight = 1 ∧ e.minlen = 1)) :=
  ⟨by decide, setEdge_and_simplex_defaults gDiamond "a" "d" "x" [] (by decide)⟩

/-- Claim C1, failing evaluation: on the three-node graph gC1 (one
node at rank 0, two at rank 1) the final translation of
calculateGraphDimensions moves every node box into the nonnegative
quadrant and shifts the label anchors, but the stored route points are
left untouched (the source iterates the point slice by value), so the
returned edge from a to b still carries points with x equal to minus
75, and its point list received none of the (135, 10) translation
applied to the node centers.  The last conjunct certifies that the
fuel 10 covers the rank loop of this input, so the model agrees with
the unbounded Go loop here. -/
theorem layout_negative_route_points :
    ((LayoutM 10 DefaultLayoutOptions gC1).edges.any
        (fun e => e.points.any (fun p => p.x < 0)) = true) ∧
    ((LayoutM 10 DefaultLayoutOptions gC1).nodes.all
        (fun n => 0 ≤ n.x - n.width / 2 ∧ 0 ≤ n.y - n.height / 2) = true) ∧
    (((LayoutM 10 DefaultLayoutOptions gC1).GetEdge "a" "b" "").map (fun e => e.points)
        = some [⟨0, 25⟩, ⟨0, 60⟩, ⟨0, 50⟩, ⟨-75, 50⟩, ⟨-75, 40⟩, ⟨-75, 75⟩]) ∧
    (((LayoutM 10 DefaultLayoutOptions gC1).GetEdge "a" "b" "").map (fun e => (e.x, e.y))
        = some (195 / 2, 60)) ∧
    (rankFixedReached gC1 10 = true) :=
  ⟨by decide, by decide, by decide, by decide, by decide⟩

/-- Claim C4, failing evaluation: gC1 and gC4b hold the same node set
(a permutation, as Go map contents) and the same edges, and were built
by the same SetNode and SetEdge calls; they differ only in the node
map iteration order, which the Go runtime chooses arbitrarily.  The
layouts differ: node b lands at x 60 in one run and x 210 in the
other, so Layout is not deterministic as the claim requires. -/
theorem layout_order_dependent :
    (gC1.nodes.Perm gC4b.nodes ∧ gC1.edges = gC4b.edges) ∧
    (((LayoutM 10 DefaultLayoutOptions gC1).GetNode "b").map (fun n => (n.x, n.y))
        = some (60, 85)) ∧
    (((LayoutM 10 DefaultLayoutOptions gC4b).GetNode "b").map (fun n => (n.x, n.y))
        = some (210, 85)) ∧
    (((LayoutM 10 DefaultLayoutOptions gC1).GetNode "b").map (fun n => (n.x, n.y))
        ≠ ((LayoutM 10 DefaultLayoutOptions gC4b).GetNode "b").map (fun n => (n.x, n.y))) ∧
    (rankFixedReached gC1 10 = true ∧ rankFixedReached gC4b 10 = true) :=
  ⟨⟨by decide, by decide⟩, by decide, by decide, by decide, by decide, by decide⟩

/-- Claim C5, failing evaluation: in the compound graph gC5 the
container A is the parent of container B, yet after Layout the box of
B reaches x 290 while the box of A ends at x 140: B is not enclosed by
A at all (much less expanded by the padding).  The parents map is
processed in the admissible iteration order A, B, C (outermost first),
so each pass recomputes A from a stale box of B; the comment of
adjustContainerSizes promises reverse topological order but the code
iterates a Go map. -/
theorem container_not_enclosing :
    (gC5.GetParent "B" = "A") ∧
    (((LayoutM 10 DefaultLayoutOptions gC5).GetNode "B").isSome = true) ∧
    (boxRight (LayoutM 10 DefaultLayoutOptions gC5) "A" = 140) ∧
    (boxRight (LayoutM 10 DefaultLayoutOptions gC5) "B" = 290) ∧
    (boxRight (LayoutM 10 DefaultLayoutOptions gC5) "A"
        < boxRight (LayoutM 10 DefaultLayoutOptions gC5) "B") ∧
    (rankFixedReached gC5 10 = true) :=
  ⟨by decide, by decide, by decide, by decide, by decide, by decide⟩

/-- Claim C7, counterexample: an edge whose endpoints share a rank is
routed by the routing phase Layout invokes as the straight two-point
segment of the two centers, not as an arc of more than two points. -/
theorem same_rank_straight_counterexample :
    (((routeEdgesG (gC7.SetGraphA defaultAttrs)).GetEdge "a" "b" "").map
        (fun e => e.points) = some [⟨0, 0⟩, ⟨0, 0⟩]) ∧
    (((routeEdgesG (gC7.SetGraphA defaultAttrs)).GetEdge "a" "b" "").map
        (fun e => e.points.length) = some 2) ∧
    (((gC7.GetNode "a").map (fun n => n.rank)) = ((gC7.GetNode "b").map (fun n => n.rank))) :=
  ⟨by decide, by decide, by decide⟩

/-- Claim C7 (amended): the routing used by Layout draws an equal-rank
edge as the straight two-point segment joining the centers, whatever
the rank direction; the five-point symmetric arc of the claim exists
only in routeSameRankEdge of the separate edge router, which Layout
never calls, and its bulge direction flips between the TB and BT rank
directions. -/
theorem same_rank_routing (rd : String) (rs : ℚ) (src dst : GNode)
    (h : src.rank = dst.rank) :
    routeEdgePoints rd src dst = [⟨src.x, src.y⟩, ⟨dst.x, dst.y⟩] ∧
    routeSameRankEdgeM "TB" rs src dst
      = [⟨src.x, src.y⟩, ⟨src.x, src.y - rs / 3⟩, ⟨(src.x + dst.x) / 2, src.y - rs / 3⟩,
         ⟨dst.x, src.y - rs / 3⟩, ⟨dst.x, dst.y⟩] ∧
    routeSameRankEdgeM "BT" rs src dst
      = [⟨src.x, src.y⟩, ⟨src.x, src.y + rs / 3⟩, ⟨(src.x + dst.x) / 2, src.y + rs / 3⟩,
         ⟨dst.x, src.y + rs / 3⟩, ⟨dst.x, dst.y⟩] := by
  refine ⟨?_, ?_, ?_⟩
  · unfold routeEdgePoints
    rw [if_neg (by simp [h])]
  · unfold routeSameRankEdgeM
    dsimp only
    rw [if_pos (Or.inl rfl), if_neg (by decide : ¬("TB" : String) = "BT")]
  · unfold routeSameRankEdgeM
    dsimp only
    rw [if_pos (Or.inr rfl), if_pos (rfl : ("BT" : String) = "BT"), sub_neg_eq_add]

/-!
Lemmas for the crossing-minimization loop.
-/

theorem orderFoldN_succ (es : List OEdge) (layers0 : List (List String)) (n : ℕ) :
    orderFoldN es layers0 (n + 1) = orderIterStep es (orderFoldN es layers0 n) n := by
  unfold orderFoldN
  rw [List.range_succ, List.foldl_append]
  rfl

theorem orderFoldN_traj (es : List OEdge) (layers0 : List (List String)) :
    ∀ n : ℕ, (orderFoldN es layers0 n).1 = orderTraj es layers0 n := by
  intro n
  induction n with
  | zero => rfl
  | succ n ih =>
    rw [orderFoldN_succ]
    unfold orderIterStep
    dsimp only
    split <;> (show sweepPass es (orderFoldN es layers0 n).1 n = _
               rw [ih]
               rfl)

/-- The loop state invariant: either nothing improved on the MaxInt32
sentinel yet and the best is still the initial ordering, or the best
is one of the post-sweep states with the least crossing count so
far. -/
theorem orderFoldN_best (es : List OEdge) (layers0 : List (List String)) :
    ∀ n : ℕ,
      ((orderFoldN es layers0 n).2.2 = maxInt32 ∧
       (orderFoldN es layers0 n).2.1 = orderTraj es layers0 0 ∧
       ∀ i, i < n → maxInt32 ≤ crossCountM es (orderTraj es layers0 (i + 1)))
      ∨
      ((orderFoldN es layers0 n).2.2 < maxInt32 ∧
       crossCountM es (orderFoldN es layers0 n).2.1 = (orderFoldN es layers0 n).2.2 ∧
       (∃ i, i < n ∧ (orderFoldN es layers0 n).2.1 = orderTraj es layers0 (i + 1)) ∧
       ∀ i, i < n → (orderFoldN es layers0 n).2.2
          ≤ crossCountM es (orderTraj es layers0 (i + 1))) := by
  intro n
  induction n with
  | zero =>
    left
    exact ⟨rfl, rfl, fun i hi => absurd hi (Nat.not_lt_zero i)⟩
  | succ n ih =>
    rw [orderFoldN_succ]
    unfold orderIterStep
    dsimp only
    have htraj : sweepPass es (orderFoldN es layers0 n).1 n = orderTraj es layers0 (n + 1) := by
      rw [orderFoldN_traj]
      rfl
    rw [htraj]
    split
    · next hlt =>
      right
      dsimp only
      refine ⟨?_, rfl, ⟨n, Nat.lt_succ_self n, rfl⟩, ?_⟩
      · rcases ih with ⟨h1, _, _⟩ | ⟨h1, _, _, _⟩ <;> omega
      · intro i hi
        rcases Nat.lt_succ_iff_lt_or_eq.mp hi with hi | rfl
        · rcases ih with ⟨h1, _, h3⟩ | ⟨h1, _, _, h4⟩
          · have := h3 i hi
            omega
          · have := h4 i hi
            omega
        · exact le_refl _
    · next hge =>
      dsimp only
      rcases ih with ⟨h1, h2, h3⟩ | ⟨h1, h2, h3, h4⟩
      · left
        refine ⟨h1, h2, ?_⟩
        intro i hi
        rcases Nat.lt_succ_iff_lt_or_eq.mp hi with hi | rfl
        · exact h3 i hi
        · omega
      · right
        refine ⟨h1, h2, ?_, ?_⟩
        · obtain ⟨i, hi, he⟩ := h3
          exact ⟨i, Nat.lt_succ_of_lt hi, he⟩
        · intro i hi
          rcases Nat.lt_succ_iff_lt_or_eq.mp hi with hi | rfl
          · exact h4 i hi
          · omega

/-- Claim C6, counterexample: on a weighted three-layer input (three
ranks with four, three and four nodes) the initial id-sorted ordering
has 4 crossings but the ordering the loop returns has 11.  The loop
never measures the initial ordering - bestCC starts at the MaxInt32
sentinel, so the first sweep always replaces the recorded best - and
on this input every sweep lands on an ordering with 11 crossings, so
the final count exceeds the initial one. -/
theorem order_final_exceeds_initial :
    crossCountM c6edges (initOrderM c6layers0) = 4 ∧
    crossCountM c6edges (orderM c6edges c6layers0) = 11 ∧
    ¬ crossCountM c6edges (orderM c6edges c6layers0)
        ≤ crossCountM c6edges (initOrderM c6layers0) :=
  ⟨by decide, by decide, by decide⟩

/-- Claim C6 (amended): the ordering the loop returns is the best of
the 24 post-sweep orderings: whenever some post-sweep crossing count
is below the MaxInt32 sentinel, the final ordering is one of the
post-sweep states and its crossing count is minimal among them.  The
initial id-sorted ordering is not among the compared candidates, so
the final count need not be below the initial count. -/
theorem order_returns_best_sweep (es : List OEdge) (layers0 : List (List String))
    (hex : ∃ i, i < 24 ∧ crossCountM es (orderTraj es layers0 (i + 1)) < maxInt32) :
    (∃ i, i < 24 ∧ orderM es layers0 = orderTraj es layers0 (i + 1)) ∧
    (∀ i, i < 24 → crossCountM es (orderM es layers0)
        ≤ crossCountM es (orderTraj es layers0 (i + 1))) := by
  obtain ⟨j, hj, hcc⟩ := hex
  rcases orderFoldN_best es layers0 24 with ⟨_, _, h3⟩ | ⟨_, h2, h3, h4⟩
  · have := h3 j hj
    omega
  · unfold orderM
    refine ⟨h3, ?_⟩
    intro i hi
    rw [h2]
    exact h4 i hi

/-- Witness for the amended C6 at the concrete weighted input. -/
theorem order_returns_best_sweep_witness :
    (∃ i, i < 24 ∧ crossCountM c6edges (orderTraj c6edges c6layers0 (i + 1)) < maxInt32) ∧
    ((∃ i, i < 24 ∧ orderM c6edges c6layers0 = orderTraj c6edges c6layers0 (i + 1)) ∧
     (∀ i, i < 24 → crossCountM c6edges (orderM c6edges c6layers0)
        ≤ crossCountM c6edges (orderTraj c6edges c6layers0 (i + 1)))) :=
  ⟨⟨0, by norm_num, by decide⟩,
   order_returns_best_sweep c6edges c6layers0 ⟨0, by norm_num, by decide⟩⟩

/-- Witness for the amended C7 at concrete nodes of equal rank. -/
theorem same_rank_routing_witness :
    (({ id := "a", x := 10, y := 20, rank := 3 } : GNode).rank
        = ({ id := "b", x := 40, y := 20, rank := 3 } : GNode).rank) ∧
    (routeEdgePoints "LR" { id := "a", x := 10, y := 20, rank := 3 }
        { id := "b", x := 40, y := 20, rank := 3 }
      = [⟨10, 20⟩, ⟨40, 20⟩] ∧
     routeSameRankEdgeM "TB" 50 { id := "a", x := 10, y := 20, rank := 3 }
        { id := "b", x := 40, y := 20, rank := 3 }
      = [⟨10, 20⟩, ⟨10, 20 - 50 / 3⟩, ⟨(10 + 40) / 2, 20 - 50 / 3⟩,
         ⟨40, 20 - 50 / 3⟩, ⟨40, 20⟩] ∧
     routeSameRankEdgeM "BT" 50 { id := "a", x := 10, y := 20, rank := 3 }
        { id := "b", x := 40, y := 20, rank := 3 }
      = [⟨10, 20⟩, ⟨10, 20 + 50 / 3⟩, ⟨(10 + 40) / 2, 20 + 50 / 3⟩,
         ⟨40, 20 + 50 / 3⟩, ⟨40, 20⟩]) :=
  ⟨rfl, same_rank_routing "LR" 50 _ _ rfl⟩

end Godagre
